import Mathlib

/-!
# espfs: a read-only filesystem over a memory-mapped image

Shallow embedding of `src/espfs.c` (with `espfs_format.h`, `espfs_priv.h`, `espfs.h`).

Conventions of the embedding.

* Memory is a total map from byte addresses to bytes. Addresses are signed displacements
  from the first byte of the image (`espFs->header`), except for the hash table, which is
  addressed from `espFs->hashTable` (it may be a private copy).
* Integer widths are those of the ESP32 target: `int`, `long`, `int32_t` and `size_t` are
  32 bits wide. Unsigned arithmetic wraps modulo `2^32`; conversions to a signed type wrap
  (`toInt32`); overflow of signed arithmetic is undefined behaviour. Addresses are not
  bounded.
* A C function returns `Exec.ok r`, or `Exec.undefined` when it runs into undefined
  behaviour (signed overflow, dereference of `NULL`, access outside an object) or fails an
  `assert`, or `Exec.timeout` when a loop budget is exhausted.
* A `const char *` argument is the list of the bytes in front of the terminating NUL.
-/

namespace Espfs

/-! ## Execution outcomes -/

/-- Outcome of running a C function. -/
inductive Exec (α : Type) where
  | ok (a : α) : Exec α
  | undefined : Exec α
  | timeout : Exec α
deriving DecidableEq, Repr

/-- Sequencing of two computations. -/
def Exec.bind {α β : Type} : Exec α → (α → Exec β) → Exec β
  | .ok a, f => f a
  | .undefined, _ => .undefined
  | .timeout, _ => .timeout

instance : Monad Exec where
  pure := Exec.ok
  bind := Exec.bind

/-! ## Machine integers -/

/-- Conversion to `int32_t` (also `int`, `long`): reduction modulo `2^32` into the signed range. -/
def toInt32 (x : Int) : Int := (x + 2147483648) % 4294967296 - 2147483648

/-- Conversion to `uint32_t` (also `size_t`): reduction modulo `2^32`. -/
def toUInt32 (x : Int) : Nat := (x % 4294967296).toNat

/-- Result of a signed 32-bit arithmetic operation whose exact value is `x`. -/
def int32 (x : Int) : Exec Int :=
  if -2147483648 ≤ x ∧ x ≤ 2147483647 then .ok x else .undefined

/-! ## Memory and the image format (`espfs_format.h`) -/

/-- Byte memory, addressed by a signed displacement from a base pointer. -/
abbrev Mem := Int → Nat

/-- Read a `uint8_t`. -/
def rd8 (m : Mem) (a : Int) : Nat := m a % 256

/-- Read a little-endian `uint16_t`. -/
def rd16 (m : Mem) (a : Int) : Nat := rd8 m a + 256 * rd8 m (a + 1)

/-- Read a little-endian `uint32_t`. -/
def rd32 (m : Mem) (a : Int) : Nat :=
  rd8 m a + 256 * rd8 m (a + 1) + 65536 * rd8 m (a + 2) + 16777216 * rd8 m (a + 3)

/-- Read `n` consecutive bytes starting at `a`. -/
def rdBytes (m : Mem) (a : Int) : Nat → List Nat
  | 0 => []
  | n + 1 => rd8 m a :: rdBytes m (a + 1) n

/-- The constant `ESPFS_MAGIC`. -/
def ESPFS_MAGIC : Nat := 0x32736645

/-- Size of the packed `EspFsHeader`: magic, majorVersion, minorVersion, reserved, numFiles. -/
def sizeofEspFsHeader : Nat := 12

/-- Size of the packed `EspFsHashTableEntry`: hash, offset. -/
def sizeofEspFsHashTableEntry : Nat := 8

/-- Size of the packed `EspFsFileHeader`: flags, compress, pathLen, fsSize, actualSize. -/
def sizeofEspFsFileHeader : Nat := 12

/-- Field `magic` of the `EspFsHeader` at the start of the image. -/
def hdrMagic (m : Mem) : Nat := rd32 m 0

/-- Field `numFiles` of the `EspFsHeader` at the start of the image. -/
def hdrNumFiles (m : Mem) : Nat := rd32 m 8

/-- Field `flags` of the `EspFsFileHeader` at address `h`. -/
def fhFlags (m : Mem) (h : Int) : Nat := rd8 m h

/-- Field `compress` of the `EspFsFileHeader` at address `h`. -/
def fhCompress (m : Mem) (h : Int) : Nat := rd8 m (h + 1)

/-- Field `pathLen` of the `EspFsFileHeader` at address `h`. -/
def fhPathLen (m : Mem) (h : Int) : Nat := rd16 m (h + 2)

/-- Field `fsSize` of the `EspFsFileHeader` at address `h`. -/
def fhFsSize (m : Mem) (h : Int) : Nat := rd32 m (h + 4)

/-- Field `actualSize` of the `EspFsFileHeader` at address `h`. -/
def fhActualSize (m : Mem) (h : Int) : Nat := rd32 m (h + 8)

def ESPFS_FLAG_DIR : Nat := 1
def ESPFS_FLAG_GZIP : Nat := 2
def ESPFS_COMPRESS_NONE : Nat := 0
def ESPFS_COMPRESS_HEATSHRINK : Nat := 1
def SEEK_SET : Int := 0
def SEEK_CUR : Int := 1
def SEEK_END : Int := 2

/-! ## The filesystem handle (`espfs_priv.h`) and `espFsInit` -/

/-- The struct `EspFs`. `header` is the image; `hashTable` is the memory at the hash table
pointer, which is the image from byte 12 on or a private copy. -/
structure EspFs where
  header : Mem
  hashTable : Mem
  cacheHashTable : Bool
  numFiles : Nat

/-- The function `espFsInit` for a region passed through `conf->memAddr`.
`callocOk` tells whether `calloc` of the handle succeeds; `heapBlock` is the result of
`malloc(hashTableSize)`: `none` for `NULL`, else the memory at the returned pointer.
The result is `none` for `NULL`. -/
def espFsInit (memAddr : Mem) (cacheHashTable : Bool) (callocOk : Bool)
    (heapBlock : Option Mem) : Option EspFs :=
  if hdrMagic memAddr ≠ ESPFS_MAGIC then none
  else if !callocOk then none
  else
    let numFiles := hdrNumFiles memAddr
    let borrowed : Mem := fun a => memAddr (sizeofEspFsHeader + a)
    if cacheHashTable then
      let hashTableSize : Nat := (sizeofEspFsHashTableEntry * numFiles) % 4294967296
      match heapBlock with
      | none =>
        some { header := memAddr, hashTable := borrowed, cacheHashTable := false,
               numFiles := numFiles }
      | some block =>
        some { header := memAddr,
               hashTable := fun a => if 0 ≤ a ∧ a < hashTableSize then borrowed a else block a,
               cacheHashTable := true, numFiles := numFiles }
    else
      some { header := memAddr, hashTable := borrowed, cacheHashTable := false,
             numFiles := numFiles }

/-! ## Path lookup: `hashPath` and `espFsFindObject` -/

/-- The loop of `hashPath`: `while ((c = (uint8_t)*s++)) hash = ((hash << 5) + hash) + c`. -/
def hashPathLoop : List Nat → Nat → Nat
  | [], hash => hash
  | ch :: s, hash =>
    if ch % 256 = 0 then hash
    else hashPathLoop s ((((hash <<< 5) % 4294967296 + hash) % 4294967296 + ch % 256) % 4294967296)

/-- The function `hashPath`. -/
def hashPath (s : List Nat) : Nat := hashPathLoop s 5381

/-- Field `hash` of `espFs->hashTable[i]`. -/
def entryHash (espFs : EspFs) (i : Int) : Nat :=
  rd32 espFs.hashTable (sizeofEspFsHashTableEntry * i)

/-- Field `offset` of `espFs->hashTable[i]`. -/
def entryOffset (espFs : EspFs) (i : Int) : Nat :=
  rd32 espFs.hashTable (sizeofEspFsHashTableEntry * i + 4)

/-- The test `strcmp(path, (char *)a) == 0` for the C string at address `a`. -/
def strcmpEq (m : Mem) : List Nat → Int → Bool
  | [], a => rd8 m a == 0
  | c :: cs, a => rd8 m a == c && strcmpEq m cs (a + 1)

/-- Stripping of one initial slash: `if (*path == '/') path++`. -/
def stripSlash : List Nat → List Nat
  | 47 :: rest => rest
  | path => path

/-- The binary search loop of `espFsFindObject`. The state is `(first, last, middle)`;
the loop is left by `break` on a hash match or when `first > last`. -/
def searchLoop (espFs : EspFs) (pathHash : Nat) :
    Nat → Int → Int → Int → Exec (Int × Int × Int)
  | 0, _, _, _ => .timeout
  | fuel + 1, first, last, middle =>
    if first ≤ last then
      if entryHash espFs middle = pathHash then .ok (first, last, middle)
      else if entryHash espFs middle < pathHash then do
        let first ← int32 (middle + 1)
        let d ← int32 (last - first)
        let middle ← int32 (first + d.tdiv 2)
        searchLoop espFs pathHash fuel first last middle
      else do
        let last ← int32 (middle - 1)
        let d ← int32 (last - first)
        let middle ← int32 (first + d.tdiv 2)
        searchLoop espFs pathHash fuel first last middle
    else .ok (first, last, middle)

/-- The loop that moves back to the first match:
`while (middle > 0) { if ((espFs->hashTable + 1)->hash != pathHash) break; entry--; middle--; }`. -/
def rewindLoop (espFs : EspFs) (pathHash : Nat) : Nat → Int → Exec Int
  | 0, middle => if middle > 0 then .timeout else .ok middle
  | fuel + 1, middle =>
    if middle > 0 then
      if entryHash espFs 1 ≠ pathHash then .ok middle
      else do
        let middle ← int32 (middle - 1)
        rewindLoop espFs pathHash fuel middle
    else .ok middle

/-- The loop that walks through the candidates:
`do { if (middle != skip) { compare and return on a match } entry++; middle++; }
 while (middle <= last && entry->hash == pathHash)`.
The result is the pointer returned from inside the loop, or `none` when the loop ends. -/
def scanLoop (espFs : EspFs) (path : List Nat) (pathHash : Nat) (skip last : Int) :
    Nat → Int → Exec (Option Int)
  | 0, _ => .timeout
  | fuel + 1, middle =>
    if middle ≠ skip ∧
        strcmpEq espFs.header path (entryOffset espFs middle + sizeofEspFsFileHeader) = true then
      .ok (some (entryOffset espFs middle))
    else do
      let middle ← int32 (middle + 1)
      if middle ≤ last ∧ entryHash espFs middle = pathHash then
        scanLoop espFs path pathHash skip last fuel middle
      else .ok none

/-- Initial value of `last`: `int32_t last = espFs->numFiles - 1`, an unsigned subtraction
converted to `int32_t`. -/
def lastInit (numFiles : Nat) : Int := toInt32 ((numFiles + 4294967295) % 4294967296 : Nat)

/-- The part of `espFsFindObject` after the binary search, entered with the values of
`first`, `last` and `middle` the search ended with (`entry` is `espFs->hashTable + middle`). -/
def findCandidate (espFs : EspFs) (path : List Nat) (pathHash : Nat)
    (first last middle : Int) : Exec (Option Int) :=
  if first > last then .ok none
  else if strcmpEq espFs.header path (entryOffset espFs middle + sizeofEspFsFileHeader) = true then
    .ok (some (entryOffset espFs middle))
  else do
    let start ← rewindLoop espFs pathHash middle.toNat middle
    scanLoop espFs path pathHash middle last (espFs.numFiles + 1) start

/-- The function `espFsFindObject`. The result is the address of the file header found
(`none` for `NULL`). -/
def espFsFindObject (espFs : EspFs) (path : List Nat) : Exec (Option Int) := do
  let found ← searchLoop espFs (hashPath (stripSlash path)) (espFs.numFiles + 1) 0
    (lastInit espFs.numFiles) ((lastInit espFs.numFiles).tdiv 2)
  findCandidate espFs (stripSlash path) (hashPath (stripSlash path)) found.1 found.2.1 found.2.2

/-! ## File handles (`espfs_priv.h`): `espFsOpen`, `espFsStat`, `espFsRead`, `espFsSeek` -/

/-- Interface of the heatshrink decoder library, over decoder states `D`.
`alloc` is `heatshrink_decoder_alloc` (`none` for `NULL`); `sink` gets the input chunk and
returns the result code, the decoder and the number of bytes consumed; `poll` gets the
output capacity and returns the result code, the decoder and the bytes produced; `finish`
returns the result code and the decoder. -/
structure Heatshrink (D : Type) where
  alloc : Nat → Nat → Nat → Option D
  sink : D → List Nat → Int × D × Nat
  poll : D → Nat → Int × D × List Nat
  finish : D → Int × D

/-- The struct `EspFsFile`. Pointers are addresses in the image; `decompData` is the
decoder the pointer refers to (`none` for `NULL`). -/
structure EspFsFile (D : Type) where
  header : Int
  flags : Nat
  compress : Nat
  pathLen : Nat
  fsSize : Nat
  actualSize : Nat
  decompPos : Int
  fsPtr : Int
  fsStartPtr : Int
  decompData : Option D
deriving DecidableEq, Repr

/-- The struct `EspFsStat`. -/
structure EspFsStat where
  flags : Nat
  compress : Nat
  size : Nat
deriving DecidableEq, Repr

/-- The function `espFsOpen`. `hs` is the decoder library when `CONFIG_ESPFS_USE_HEATSHRINK`
is defined, `mallocOk` tells whether `malloc` of the handle succeeds. The result is `none`
for `NULL`. When the object is not found the code only logs and goes on to read
`header->flags` through the `NULL` pointer. -/
def espFsOpen {D : Type} (hs : Option (Heatshrink D)) (espFs : EspFs) (path : List Nat)
    (mallocOk : Bool) : Exec (Option (EspFsFile D)) := do
  let found ← espFsFindObject espFs path
  match found with
  | none => .undefined
  | some header =>
    if fhFlags espFs.header header &&& ESPFS_FLAG_DIR ≠ 0 then .ok none
    else if !mallocOk then .ok none
    else
      let file : EspFsFile D :=
        { header := header,
          flags := fhFlags espFs.header header,
          compress := fhCompress espFs.header header,
          pathLen := fhPathLen espFs.header header,
          fsSize := fhFsSize espFs.header header,
          actualSize := fhActualSize espFs.header header,
          decompPos := 0,
          fsPtr := header + sizeofEspFsHeader + fhPathLen espFs.header header,
          fsStartPtr := header + sizeofEspFsHeader + fhPathLen espFs.header header,
          decompData := none }
      if file.compress = ESPFS_COMPRESS_NONE then .ok (some file)
      else
        match hs with
        | some h =>
          if file.compress = ESPFS_COMPRESS_HEATSHRINK then
            let param := rd8 espFs.header file.fsStartPtr
            .ok (some { file with
              fsStartPtr := file.fsStartPtr + 1,
              fsPtr := file.fsPtr + 1,
              fsSize := (file.fsSize + 4294967295) % 4294967296,
              decompData := h.alloc 16 (param >>> 4) (param &&& 15) })
          else .ok none
        | none => .ok none

/-- The function `espFsStat`. `stat` is the object behind the pointer `stat` (`none` for
`NULL`), `mallocOk` tells whether `malloc` of `path2` succeeds. The result is the returned
truth value and the object behind `stat` afterwards. For the empty path the code reads
`path[pathLen - 1]`, one byte in front of the string. -/
def espFsStat (espFs : EspFs) (path : List Nat) (stat : Option EspFsStat) (mallocOk : Bool) :
    Exec (Bool × Option EspFsStat) :=
  match path.getLast? with
  | none => .undefined
  | some c =>
    if c = 47 ∧ mallocOk = false then .ok (false, stat)
    else do
      let found ← espFsFindObject espFs (if c = 47 then path.dropLast else path)
      match found with
      | none => .ok (false, stat)
      | some header =>
        match stat with
        | none => .ok (true, none)
        | some _ =>
          .ok (true, some
            { flags := fhFlags espFs.header header,
              size := fhActualSize espFs.header header,
              compress := if fhFlags espFs.header header &&& ESPFS_FLAG_DIR ≠ 0 then 0
                          else fhCompress espFs.header header })

/-- The function `espFsFlags`. -/
def espFsFlags {D : Type} (m : Mem) (file : EspFsFile D) : Int := fhFlags m file.header

/-- Number of stored bytes in front of the cursor, as `size_t`:
`file->fsSize - (file->fsPtr - file->fsStartPtr)`. -/
def fsRemainOf {D : Type} (file : EspFsFile D) : Nat :=
  toUInt32 (file.fsSize - (file.fsPtr - file.fsStartPtr))

/-- The decoding loop of `espFsRead` for a heatshrink file: `while (decoded < len) ...`.
The state is the handle, the decoder, `decoded` and the bytes put into `buf` so far. -/
def readLoop {D : Type} (h : Heatshrink D) (m : Mem) (len : Int) :
    Nat → EspFsFile D → D → Int → List Nat → Exec (EspFsFile D × List Nat × Int)
  | 0, _, _, _, _ => .timeout
  | fuel + 1, file, decoder, decoded, out =>
    if decoded < len then
      let fsRemain := fsRemainOf file
      let sunk := h.sink decoder (rdBytes m file.fsPtr (if fsRemain > 16 then 16 else fsRemain))
      if fsRemain > 0 ∧ sunk.1 < 0 then
        .ok ({ file with decompData := some sunk.2.1 }, out, -1)
      else
        let decoder := if fsRemain > 0 then sunk.2.1 else decoder
        let file := if fsRemain > 0 then { file with fsPtr := file.fsPtr + sunk.2.2 } else file
        let polled := h.poll decoder (toUInt32 (len - decoded))
        if polled.1 < 0 then
          .ok ({ file with decompData := some polled.2.1 }, out, -1)
        else
          let decoder := polled.2.1
          let rlen := polled.2.2.length
          let file := { file with decompPos := toInt32 (file.decompPos + rlen) }
          let out := out ++ polled.2.2
          let decoded := toInt32 (decoded + rlen)
          if fsRemain = 0 then
            if toUInt32 file.decompPos = file.actualSize then
              let finished := h.finish decoder
              if finished.1 < 0 then
                .ok ({ file with decompData := some finished.2 }, out, -1)
              else .ok ({ file with decompData := some finished.2 }, out, decoded)
            else .ok ({ file with decompData := some decoder }, out, decoded)
          else readLoop h m len fuel file decoder decoded out
    else .ok ({ file with decompData := some decoder }, out, len)

/-- The function `espFsRead`. `m` is the memory the handle points into, `fuel` bounds the
iterations of the decoding loop. The result is the handle afterwards, the bytes written to
`buf` in order, and the returned value. A negative `len` fails the assertion. When the
remaining size converted to `int` is negative, `len` becomes negative and `memcpy` is asked
for more than `2^31` bytes, past the `len` bytes the caller provided in `buf`. With a `NULL`
decoder the loop `while (decoded < len)` passes the null pointer to the library on its first
iteration; with `len == 0` the loop is not entered and the call returns `len`. -/
def espFsRead {D : Type} (hs : Option (Heatshrink D)) (m : Mem) (fuel : Nat)
    (file : EspFsFile D) (len : Int) : Exec (EspFsFile D × List Nat × Int) :=
  if len < 0 then .undefined
  else if file.compress = ESPFS_COMPRESS_NONE then
    let fsRemain : Int := toInt32 (fsRemainOf file)
    let len := if len > fsRemain then fsRemain else len
    if len < 0 then .undefined
    else do
      let decompPos ← int32 (file.decompPos + len)
      .ok ({ file with decompPos := decompPos, fsPtr := file.fsPtr + len },
           rdBytes m file.fsPtr len.toNat, len)
  else
    match hs with
    | some h =>
      if file.compress = ESPFS_COMPRESS_HEATSHRINK then
        if toUInt32 file.decompPos = file.actualSize then .ok (file, [], 0)
        else
          match file.decompData with
          | none => if 0 < len then .undefined else .ok (file, [], len)
          | some decoder => readLoop h m len fuel file decoder 0 []
      else .ok (file, [], 0)
    | none => .ok (file, [], 0)

/-- The function `espFsSeek`. The result is the handle afterwards and the returned value. -/
def espFsSeek {D : Type} (heatshrink : Bool) (file : EspFsFile D) (offset : Int) (mode : Int) :
    Exec (EspFsFile D × Int) :=
  if file.compress = ESPFS_COMPRESS_NONE then
    if mode = SEEK_SET then
      if offset < 0 then .ok (file, -1)
      else if offset = 0 then
        .ok ({ file with fsPtr := file.fsStartPtr, decompPos := 0 }, 0)
      else
        let offset := if toUInt32 offset > file.fsSize then toInt32 file.fsSize else offset
        .ok ({ file with fsPtr := file.fsStartPtr + offset, decompPos := offset }, offset)
    else if mode = SEEK_CUR then
      if offset < 0 then do
        let pos ← int32 (file.decompPos + offset)
        if pos < 0 then .ok ({ file with fsPtr := file.fsStartPtr, decompPos := 0 }, 0)
        else .ok ({ file with fsPtr := file.fsPtr + offset, decompPos := pos }, pos)
      else if offset = 0 then .ok (file, file.decompPos)
      else do
        let pos ← int32 (file.decompPos + offset)
        if toUInt32 pos > file.fsSize then
          .ok ({ file with fsPtr := file.fsStartPtr + file.fsSize,
                           decompPos := toInt32 file.fsSize }, toInt32 file.fsSize)
        else .ok ({ file with fsPtr := file.fsPtr + offset, decompPos := pos }, pos)
    else if mode = SEEK_END then
      if offset < 0 then do
        let pos ← int32 (toInt32 file.fsSize + offset)
        if pos < 0 then .ok ({ file with fsPtr := file.fsStartPtr, decompPos := 0 }, 0)
        else
          .ok ({ file with fsPtr := file.fsStartPtr + file.fsSize + offset,
                           decompPos := toInt32 (file.fsSize + offset) },
               toInt32 (file.fsSize + offset))
      else if offset = 0 then
        .ok ({ file with fsPtr := file.fsStartPtr + file.fsSize,
                         decompPos := toInt32 file.fsSize }, toInt32 file.fsSize)
      else .ok (file, -1)
    else .ok (file, -1)
  else if heatshrink = true ∧ file.compress = ESPFS_COMPRESS_HEATSHRINK then
    if mode = SEEK_SET then
      if offset < 0 then .ok (file, -1)
      else if offset = 0 then
        .ok ({ file with fsPtr := file.fsStartPtr, decompPos := 0 }, 0)
      else .ok (file, -1)
    else if mode = SEEK_CUR then
      if offset < 0 then .ok (file, -1)
      else if offset = 0 then .ok (file, file.decompPos)
      else .ok (file, -1)
    else if mode = SEEK_END then
      if offset < 0 then .ok (file, -1)
      else if offset = 0 then
        .ok ({ file with fsPtr := file.fsStartPtr + file.fsSize,
                         decompPos := toInt32 file.fsSize }, toInt32 file.fsSize)
      else .ok (file, -1)
    else .ok (file, -1)
  else .ok (file, file.decompPos)

/-- The function `espFsAccess`. The result is the pointer stored to `*buf` (`none` when
nothing is stored) and the returned value. -/
def espFsAccess {D : Type} (file : EspFsFile D) : Option Int × Int :=
  if file.compress ≠ ESPFS_COMPRESS_NONE then (none, -1)
  else (some file.fsStartPtr, toInt32 file.fsSize)

/-- The function `espFsFilesize`. -/
def espFsFilesize {D : Type} (file : EspFsFile D) : Int := toInt32 file.actualSize

/-! ## Building images for tests -/

/-- Bytes of a string. -/
def bytes (s : String) : List Nat := s.toList.map Char.toNat

/-- Little-endian bytes of a 16-bit value. -/
def le16 (n : Nat) : List Nat := [n % 256, n / 256 % 256]

/-- Little-endian bytes of a 32-bit value. -/
def le32 (n : Nat) : List Nat := [n % 256, n / 256 % 256, n / 65536 % 256, n / 16777216 % 256]

/-- Description of one object of a test image. -/
structure TestFile where
  path : List Nat
  flags : Nat
  compress : Nat
  actualSize : Nat
  payload : List Nat

/-- Bytes of a file record: the header, the path with its NUL, the payload. -/
def TestFile.record (f : TestFile) : List Nat :=
  [f.flags % 256, f.compress % 256] ++ le16 (f.path.length + 1) ++ le32 f.payload.length
    ++ le32 f.actualSize ++ f.path ++ [0] ++ f.payload

/-- Hash table entries for the records laid out one after the other from `offset` on. -/
def tableBytes : List TestFile → Nat → List Nat
  | [], _ => []
  | f :: fs, offset =>
    le32 (hashPath f.path) ++ le32 offset ++ tableBytes fs (offset + f.record.length)

/-- Bytes of an image holding the given objects in the given order. -/
def imageBytes (files : List TestFile) : List Nat :=
  le32 ESPFS_MAGIC ++ [0, 1, 0, 0] ++ le32 files.length
    ++ tableBytes files (sizeofEspFsHeader + sizeofEspFsHashTableEntry * files.length)
    ++ (files.map TestFile.record).flatten

/-- Memory holding the given bytes from address 0 on, and zero elsewhere. -/
def memOfBytes (bs : List Nat) : Mem := fun a => if a < 0 then 0 else bs.getD a.toNat 0

/-- An empty regular file with the given path. -/
def emptyFile (path : String) : TestFile :=
  { path := bytes path, flags := 0, compress := 0, actualSize := 0, payload := [] }

/-- Six files ordered by hash; `ab` and `bA` have the same hash. -/
def collisionFiles : List TestFile :=
  [emptyFile "a", emptyFile "b", emptyFile "c", emptyFile "ab", emptyFile "bA", emptyFile "zz"]

/-- The handle `espFsInit` returns for the image of the given objects, its hash table
borrowed from the image (an empty handle if the image were rejected). -/
def testFs (files : List TestFile) : EspFs :=
  (espFsInit (memOfBytes (imageBytes files)) false true none).getD
    { header := fun _ => 0, hashTable := fun _ => 0, cacheHashTable := false, numFiles := 0 }

/-- The handle of the image of `collisionFiles`. -/
def collisionFs : EspFs := testFs collisionFiles

/-- The file `a.txt` of the scenario of the specification: uncompressed, holding `hello`. -/
def fileA : TestFile :=
  { path := bytes "a.txt", flags := 0, compress := 0, actualSize := 5, payload := bytes "hello" }

/-- A directory whose record stores the given path. -/
def dirB (path : String) : TestFile :=
  { path := bytes path, flags := ESPFS_FLAG_DIR, compress := 0, actualSize := 0, payload := [] }

/-- The image of the scenario of the specification: record A is `a.txt`, record B is a
directory whose record stores the path `dir/`. The order is ascending by hash. -/
def specFs : EspFs := testFs [fileA, dirB "dir/"]

/-- The same scenario with the directory record storing the path `dir`. The order is
ascending by hash. -/
def dirFs : EspFs := testFs [dirB "dir", fileA]

/-- Some content of the object behind `stat` before the call. -/
def stat0 : EspFsStat := { flags := 255, compress := 255, size := 4294967295 }

/-! ## Notions of the specification -/

/-- The hash as the specification words it: start from 5381 and, for each byte `c` in
order, replace `hash` by `(hash * 33 + c) mod 2^32`. -/
def djb2 (s : List Nat) : Nat := s.foldl (fun hash c => (hash * 33 + c) % 4294967296) 5381

/-- Removal of exactly one leading slash if there is one, as the specification words it. -/
def stripLeadingSlash (p : List Nat) : List Nat :=
  if p.head? = some 47 then p.tail else p

/-- The record at address `h` stores the path `path`: the bytes after the 12-byte file
header are the bytes of `path` followed by a NUL. -/
def StoresPath (m : Mem) (h : Int) (path : List Nat) : Prop :=
  rdBytes m (h + 12) path.length = path ∧ rd8 m (h + 12 + path.length) = 0

instance (m : Mem) (h : Int) (path : List Nat) : Decidable (StoresPath m h path) := by
  unfold StoresPath
  infer_instance

/-- A handle with `2^31` files whose image holds the header and zero bytes elsewhere. -/
def hugeFs : EspFs :=
  { header := memOfBytes (le32 ESPFS_MAGIC ++ [0, 1, 0, 0] ++ le32 2147483648),
    hashTable := fun a =>
      memOfBytes (le32 ESPFS_MAGIC ++ [0, 1, 0, 0] ++ le32 2147483648) (sizeofEspFsHeader + a),
    cacheHashTable := false,
    numFiles := 2147483648 }

/-- Well-formed image, with `paths` the paths of its records in table order: the table is
sorted ascending by hash, there are fewer than `2^31` files, every entry's hash is the hash
of the path stored in the record at its offset, the paths are distinct C strings and none
begins with a slash. -/
def WellFormed (espFs : EspFs) (paths : List (List Nat)) : Prop :=
  espFs.numFiles = paths.length ∧ espFs.numFiles < 2147483648 ∧
  (∀ i : Nat, i < paths.length →
    StoresPath espFs.header (entryOffset espFs i) (paths.getD i []) ∧
    entryHash espFs i = djb2 (paths.getD i []) ∧
    ∀ c ∈ paths.getD i [], 0 < c ∧ c < 256) ∧
  (∀ i : Nat, i < paths.length → ∀ j : Nat, j < i → entryHash espFs j ≤ entryHash espFs i) ∧
  paths.Nodup ∧ ∀ p ∈ paths, p.head? ≠ some 47

instance (espFs : EspFs) (paths : List (List Nat)) : Decidable (WellFormed espFs paths) := by
  unfold WellFormed
  infer_instance

/-- An image with one file whose stored path begins with a slash. -/
def slashFs : EspFs := testFs [emptyFile "/a"]

/-- The handle is an open uncompressed handle whose stored position is `pos`: the cursor is
`pos` bytes after the start of the stored bytes, within the stored size, and the logical
position is the stored position. -/
def UncompressedAt {D : Type} (file : EspFsFile D) (pos : Nat) : Prop :=
  file.compress = ESPFS_COMPRESS_NONE ∧ file.fsPtr = file.fsStartPtr + pos ∧
    file.decompPos = pos ∧ pos ≤ file.fsSize

instance {D : Type} (file : EspFsFile D) (pos : Nat) : Decidable (UncompressedAt file pos) := by
  unfold UncompressedAt
  infer_instance

/-- The payload of the record at address `h`: the `fsSize` bytes that follow the 12-byte
file header and the `pathLen` bytes of the path. -/
def payloadOf (m : Mem) (h : Int) : List Nat :=
  rdBytes m (h + sizeofEspFsFileHeader + fhPathLen m h) (fhFsSize m h)

/-- Successive calls of `espFsRead` with the given lengths, as a reader loop makes them.
The result is the handle afterwards, the bytes of all calls one after the other, and the
returned values. -/
def readAll {D : Type} (hs : Option (Heatshrink D)) (m : Mem) (fuel : Nat) :
    EspFsFile D → List Int → Exec (EspFsFile D × List Nat × List Int)
  | file, [] => .ok (file, [], [])
  | file, len :: lens => do
    let r ← espFsRead hs m fuel file len
    let rest ← readAll hs m fuel r.1 lens
    .ok (rest.1, r.2.1 ++ rest.2.1, r.2.2 :: rest.2.2)

/-- Bytes of an image with one uncompressed file `big` whose record gives `fsSize` as the
size of its stored bytes. -/
def bigBytes (fsSize : Nat) : List Nat :=
  le32 ESPFS_MAGIC ++ [0, 1, 0, 0] ++ le32 1 ++ le32 (hashPath (bytes "big")) ++ le32 20
    ++ [0, 0] ++ le16 4 ++ le32 fsSize ++ le32 fsSize ++ bytes "big" ++ [0]

/-- The handle `espFsInit` returns for the image `bigBytes fsSize`. -/
def bigFs (fsSize : Nat) : EspFs :=
  (espFsInit (memOfBytes (bigBytes fsSize)) false true none).getD
    { header := fun _ => 0, hashTable := fun _ => 0, cacheHashTable := false, numFiles := 0 }

/-- The file handle `espFsOpen` returns for the file `big` of the image `bigBytes fsSize`. -/
def bigFile (fsSize : Nat) : EspFsFile Unit :=
  { header := 20, flags := 0, compress := 0, pathLen := 4, fsSize := fsSize,
    actualSize := fsSize, decompPos := 0, fsPtr := 36, fsStartPtr := 36, decompData := none }

/-- The file handle `espFsOpen` returns for `a.txt` in the scenario image, moved to the
stored position `pos`. -/
def fileAAt (pos : Nat) : EspFsFile Unit :=
  { header := 28, flags := 0, compress := 0, pathLen := 6, fsSize := 5, actualSize := 5,
    decompPos := pos, fsPtr := 46 + pos, fsStartPtr := 46, decompData := none }

/-- Every second byte of a list of (tag, byte) pairs. -/
def pairBytes : List Nat → List Nat
  | _ :: b :: rest => b :: pairBytes rest
  | _ => []

/-- A small decoder for tests, in place of the heatshrink library: the stored stream is a
sequence of (tag, byte) pairs that decode to the bytes. The decoder state is the input that
has been sunk and not yet decoded; `poll` decodes as many pairs as fit the output. -/
def pairCodec : Heatshrink (List Nat) :=
  { alloc := fun _ _ _ => some [],
    sink := fun d chunk => (0, d ++ chunk, chunk.length),
    poll := fun d cap =>
      (0, d.drop (2 * ((pairBytes d).take cap).length), (pairBytes d).take cap),
    finish := fun d => (0, d) }

/-- A file `z` compressed for `pairCodec`: the parameter byte, then the pairs of `hi`.
Its stored size is 5 and its decompressed size is 2. -/
def fileZ : TestFile :=
  { path := bytes "z", flags := 0, compress := ESPFS_COMPRESS_HEATSHRINK, actualSize := 2,
    payload := [68, 0, 104, 0, 105] }

/-- The handle of the image that holds the compressed file `z`. -/
def zFs : EspFs := testFs [fileZ]

/-- The file handle `espFsOpen` returns for `z`, with the logical position, the cursor and
the decoder state given. -/
def fileZAt (decompPos : Int) (fsPtr : Int) (decoder : List Nat) : EspFsFile (List Nat) :=
  { header := 20, flags := 0, compress := 1, pathLen := 2, fsSize := 4, actualSize := 2,
    decompPos := decompPos, fsPtr := fsPtr, fsStartPtr := 35, decompData := some decoder }

/-- The hash table is sorted ascending by hash. -/
def SortedTable (espFs : EspFs) : Prop :=
  ∀ i : Nat, i < espFs.numFiles → ∀ j : Nat, j < i → entryHash espFs j ≤ entryHash espFs i

instance (espFs : EspFs) : Decidable (SortedTable espFs) := by
  unfold SortedTable
  infer_instance

/-- The binary-search phase of `espFsFindObject` for the hash `pathHash`: the loop, entered
with `first = 0`, `last = numFiles - 1` and `middle = last / 2`. -/
def binarySearch (espFs : EspFs) (pathHash : Nat) : Exec (Int × Int × Int) :=
  searchLoop espFs pathHash (espFs.numFiles + 1) 0 (lastInit espFs.numFiles)
    ((lastInit espFs.numFiles).tdiv 2)

/-! ## The lookup with the list of the hash table entries it reads -/

/-- The binary search loop of `espFsFindObject` with the indices of the entries it reads:
each iteration reads `entry->hash` of `espFs->hashTable + middle`. -/
def searchLoopReads (espFs : EspFs) (pathHash : Nat) :
    Nat → Int → Int → Int → Exec ((Int × Int × Int) × List Int)
  | 0, _, _, _ => .timeout
  | fuel + 1, first, last, middle =>
    if first ≤ last then
      if entryHash espFs middle = pathHash then .ok ((first, last, middle), [middle])
      else if entryHash espFs middle < pathHash then do
        let first ← int32 (middle + 1)
        let d ← int32 (last - first)
        let next ← int32 (first + d.tdiv 2)
        let r ← searchLoopReads espFs pathHash fuel first last next
        .ok (r.1, middle :: r.2)
      else do
        let last ← int32 (middle - 1)
        let d ← int32 (last - first)
        let next ← int32 (first + d.tdiv 2)
        let r ← searchLoopReads espFs pathHash fuel first last next
        .ok (r.1, middle :: r.2)
    else .ok ((first, last, middle), [])

/-- The loop that moves back to the first match, with the indices it reads: each iteration
reads `(espFs->hashTable + 1)->hash`. -/
def rewindLoopReads (espFs : EspFs) (pathHash : Nat) : Nat → Int → Exec (Int × List Int)
  | 0, middle => if middle > 0 then .timeout else .ok (middle, [])
  | fuel + 1, middle =>
    if middle > 0 then
      if entryHash espFs 1 ≠ pathHash then .ok (middle, [1])
      else do
        let middle ← int32 (middle - 1)
        let r ← rewindLoopReads espFs pathHash fuel middle
        .ok (r.1, 1 :: r.2)
    else .ok (middle, [])

/-- The loop that walks through the candidates, with the indices it reads: when `middle`
is not `skip` it reads `entry->offset` at `middle`, and after the increment the condition
`middle <= last && entry->hash == pathHash` reads `entry->hash` at the new `middle` when
`middle <= last`. -/
def scanLoopReads (espFs : EspFs) (path : List Nat) (pathHash : Nat) (skip last : Int) :
    Nat → Int → Exec (Option Int × List Int)
  | 0, _ => .timeout
  | fuel + 1, middle =>
    if middle ≠ skip ∧
        strcmpEq espFs.header path (entryOffset espFs middle + sizeofEspFsFileHeader) = true then
      .ok (some (entryOffset espFs middle), [middle])
    else do
      let next ← int32 (middle + 1)
      if next ≤ last ∧ entryHash espFs next = pathHash then do
        let r ← scanLoopReads espFs path pathHash skip last fuel next
        .ok (r.1, (if middle ≠ skip then [middle] else []) ++ next :: r.2)
      else
        .ok (none, (if middle ≠ skip then [middle] else []) ++ (if next ≤ last then [next] else []))

/-- The part of `espFsFindObject` after the binary search, with the indices it reads: the
optimistic test reads `entry->offset` at `middle`. -/
def findCandidateReads (espFs : EspFs) (path : List Nat) (pathHash : Nat)
    (first last middle : Int) : Exec (Option Int × List Int) :=
  if first > last then .ok (none, [])
  else if strcmpEq espFs.header path (entryOffset espFs middle + sizeofEspFsFileHeader) = true then
    .ok (some (entryOffset espFs middle), [middle])
  else do
    let start ← rewindLoopReads espFs pathHash middle.toNat middle
    let r ← scanLoopReads espFs path pathHash middle last (espFs.numFiles + 1) start.1
    .ok (r.1, middle :: (start.2 ++ r.2))

/-- The function `espFsFindObject` with the indices of the hash table entries it reads, in
order. -/
def espFsFindObjectReads (espFs : EspFs) (path : List Nat) : Exec (Option Int × List Int) := do
  let found ← searchLoopReads espFs (hashPath (stripSlash path)) (espFs.numFiles + 1) 0
    (lastInit espFs.numFiles) ((lastInit espFs.numFiles).tdiv 2)
  let r ← findCandidateReads espFs (stripSlash path) (hashPath (stripSlash path))
    found.1.1 found.1.2.1 found.1.2.2
  .ok (r.1, found.2 ++ r.2)

/-- A handle with no files. -/
def emptyFs : EspFs := testFs []

/-! ## Mounting: the layout of an image and a table size that does not fit 32 bits -/

/-- The image holds, in order, the header, the hash table and the file records: the offset
of every hash table entry is at or after the end of the table. -/
def RecordsFollowTable (memAddr : Mem) : Prop :=
  ∀ i : Nat, i < hdrNumFiles memAddr →
    sizeofEspFsHeader + sizeofEspFsHashTableEntry * hdrNumFiles memAddr ≤
      rd32 memAddr (sizeofEspFsHeader + sizeofEspFsHashTableEntry * (i : Int) + 4)

instance (memAddr : Mem) : Decidable (RecordsFollowTable memAddr) := by
  unfold RecordsFollowTable
  infer_instance

/-- A region with the magic and `numFiles = 2^29 + 1`, zero elsewhere: for it
`hashTableSize` is `8 * (2^29 + 1) mod 2^32 = 8`. -/
def wrapRegion : Mem := memOfBytes (le32 ESPFS_MAGIC ++ [0, 1, 0, 0] ++ le32 536870913)

/-- Heap memory in which every 8 bytes read as the entry `{hash = 5381, offset = 0}`. -/
def heapOf5381 : Mem := fun a => [5, 21, 0, 0, 0, 0, 0, 0].getD (a % 8).toNat 0

/-! ## Sequences of calls on an open handle -/

/-- A call on an open handle: `espFsRead(file, buf, len)` or `espFsSeek(file, offset, mode)`. -/
inductive FileCall where
  | read (len : Int)
  | seek (offset : Int) (mode : Int)
deriving DecidableEq, Repr

/-- One call on the handle; the result is the handle afterwards, whatever value the call
returns. `espFsSeek` has its heatshrink branch when the decoder library is compiled in. -/
def callFile {D : Type} (hs : Option (Heatshrink D)) (m : Mem) (fuel : Nat)
    (file : EspFsFile D) : FileCall → Exec (EspFsFile D)
  | .read len => do
    let r ← espFsRead hs m fuel file len
    .ok r.1
  | .seek offset mode => do
    let r ← espFsSeek hs.isSome file offset mode
    .ok r.1

/-- A sequence of calls on the handle, one after the other; the result is the list of the
handle's states after each call. -/
def callsFile {D : Type} (hs : Option (Heatshrink D)) (m : Mem) (fuel : Nat) :
    EspFsFile D → List FileCall → Exec (List (EspFsFile D))
  | _, [] => .ok []
  | file, c :: cs => do
    let f ← callFile hs m fuel file c
    let rest ← callsFile hs m fuel f cs
    .ok (f :: rest)

/-- The arguments of a call are in the range of their C types (`int len` with the asserted
`len >= 0`, `long offset`), and a seek relative to the current position has an offset that
cannot overflow the sum `decompPos + offset` for a position up to `fsSize`. -/
def CallInRange (fsSize : Nat) : FileCall → Prop
  | .read len => 0 ≤ len
  | .seek offset mode =>
    -2147483648 ≤ offset ∧ offset ≤ 2147483647 ∧
      (mode = SEEK_CUR → offset + fsSize ≤ 2147483647)

instance (fsSize : Nat) (c : FileCall) : Decidable (CallInRange fsSize c) := by
  cases c <;> unfold CallInRange <;> infer_instance

/-! # Theorems -/

/-! ## Lemmas on outcomes and machine integers -/

@[simp] theorem Exec.ok_bind {α β : Type} (a : α) (f : α → Exec β) :
    (Exec.ok a >>= f) = f a := rfl

@[simp] theorem Exec.undefined_bind {α β : Type} (f : α → Exec β) :
    (Exec.undefined >>= f) = Exec.undefined := rfl

@[simp] theorem Exec.timeout_bind {α β : Type} (f : α → Exec β) :
    (Exec.timeout >>= f) = Exec.timeout := rfl

theorem Exec.bind_eq_ok {α β : Type} (x : Exec α) (f : α → Exec β) (r : β) :
    (x >>= f) = .ok r ↔ ∃ a, x = .ok a ∧ f a = .ok r := by
  cases x <;> simp

theorem int32_bind_eq_ok {β : Type} (x : Int) (f : Int → Exec β) (r : β) :
    (int32 x >>= f) = .ok r ↔ (-2147483648 ≤ x ∧ x ≤ 2147483647) ∧ f x = .ok r := by
  unfold int32
  by_cases h : -2147483648 ≤ x ∧ x ≤ 2147483647
  · simp [h]
  · simp [h]

theorem int32_of_range (x : Int) (h1 : -2147483648 ≤ x) (h2 : x ≤ 2147483647) :
    int32 x = .ok x := by
  unfold int32
  rw [if_pos ⟨h1, h2⟩]

theorem tdiv_two_bounds (d : Int) (hd : 0 ≤ d) : 0 ≤ d.tdiv 2 ∧ d.tdiv 2 ≤ d := by
  rw [Int.tdiv_eq_ediv hd (by decide)]
  omega

/-- The initial value of `last` is below `numFiles`. -/
theorem lastInit_lt (n : Nat) : lastInit n < n := by
  unfold lastInit toInt32
  omega

/-- For fewer than `2^31` files the initial value of `last` is `numFiles - 1`. -/
theorem lastInit_eq (n : Nat) (hn : n < 2147483648) : lastInit n = (n : Int) - 1 := by
  unfold lastInit toInt32
  omega

/-! ## The hash -/

theorem hashPathLoop_eq_foldl (s : List Nat) (hs : ∀ c ∈ s, 0 < c ∧ c < 256) (hash : Nat) :
    hashPathLoop s hash = s.foldl (fun hash c => (hash * 33 + c) % 4294967296) hash := by
  induction s generalizing hash with
  | nil => rfl
  | cons c s ih =>
    have hc := hs c (List.mem_cons_self c s)
    have hmod : c % 256 = c := Nat.mod_eq_of_lt hc.2
    have hstep : (((hash <<< 5) % 4294967296 + hash) % 4294967296 + c) % 4294967296
        = (hash * 33 + c) % 4294967296 := by
      rw [Nat.shiftLeft_eq]
      omega
    simp only [hashPathLoop, hmod, List.foldl_cons]
    rw [if_neg (by omega), hstep]
    exact ih (fun d hd => hs d (List.mem_cons_of_mem c hd)) _

/-- C4: for a byte string without NUL (every byte in 1..255) `hashPath` is the value got by
starting from 5381 and replacing `hash` by `(hash * 33 + c) mod 2^32` for each byte `c` in
order; the hash of the empty string is 5381. -/
theorem hashPath_eq_djb2 (s : List Nat) (hs : ∀ c ∈ s, 0 < c ∧ c < 256) :
    hashPath s = djb2 s ∧ hashPath [] = 5381 :=
  ⟨hashPathLoop_eq_foldl s hs 5381, rfl⟩

theorem hashPath_eq_djb2_witness :
    (∀ c ∈ bytes "a.txt", 0 < c ∧ c < 256) ∧
      (hashPath (bytes "a.txt") = djb2 (bytes "a.txt") ∧ hashPath [] = 5381) ∧
      djb2 (bytes "a.txt") = 250970068 :=
  ⟨by decide, hashPath_eq_djb2 (bytes "a.txt") (by decide), by decide⟩

/-! ## The lookup: invariants of the three loops -/

theorem tdiv_two_bounds_neg (d : Int) (hd : -1 ≤ d) : 0 ≤ d.tdiv 2 ∧ d.tdiv 2 ≤ d + 1 := by
  rcases (by omega : d = -1 ∨ 0 ≤ d) with h | h
  · subst h
    decide
  · have := tdiv_two_bounds d h
    omega

theorem strcmpEq_iff (m : Mem) (path : List Nat) (a : Int) :
    strcmpEq m path a = true ↔
      rdBytes m a path.length = path ∧ rd8 m (a + path.length) = 0 := by
  induction path generalizing a with
  | nil => simp [strcmpEq, rdBytes]
  | cons c cs ih =>
    simp only [strcmpEq, rdBytes, List.length_cons, Bool.and_eq_true, beq_iff_eq,
      List.cons.injEq, ih, Nat.cast_add, Nat.cast_one]
    rw [show a + ((cs.length : Int) + 1) = a + 1 + cs.length by ring]
    tauto

theorem stripSlash_eq (p : List Nat) : stripSlash p = stripLeadingSlash p := by
  unfold stripLeadingSlash
  match p with
  | [] => rfl
  | c :: rest =>
    by_cases hc : c = 47
    · subst hc
      rfl
    · have h1 : stripSlash (c :: rest) = c :: rest := by
        unfold stripSlash
        split
        · rename_i heq
          simp only [List.cons.injEq] at heq
          exact absurd heq.1 hc
        · rfl
      simp [h1, hc]

theorem searchLoop_inv (espFs : EspFs) (pathHash : Nat) (bound : Int) :
    ∀ (fuel : Nat) (first last middle : Int) (r : Int × Int × Int),
      searchLoop espFs pathHash fuel first last middle = .ok r →
      0 ≤ first → last ≤ bound → (first ≤ last → first ≤ middle ∧ middle ≤ last) →
      0 ≤ r.1 ∧ r.2.1 ≤ bound ∧
        (r.1 ≤ r.2.1 → r.1 ≤ r.2.2 ∧ r.2.2 ≤ r.2.1 ∧ entryHash espFs r.2.2 = pathHash) := by
  intro fuel
  induction fuel with
  | zero => intro first last middle r h; simp [searchLoop] at h
  | succ fuel ih =>
    intro first last middle r h h0 hb hm
    simp only [searchLoop] at h
    split_ifs at h with hfl heq hlt
    · simp only [Exec.ok.injEq] at h
      subst h
      exact ⟨h0, hb, fun _ => ⟨(hm hfl).1, (hm hfl).2, heq⟩⟩
    · rw [int32_bind_eq_ok] at h
      obtain ⟨_, h⟩ := h
      rw [int32_bind_eq_ok] at h
      obtain ⟨_, h⟩ := h
      rw [int32_bind_eq_ok] at h
      obtain ⟨_, h⟩ := h
      have hm' := hm hfl
      refine ih _ _ _ r h (by omega) hb ?_
      intro hle
      have := tdiv_two_bounds (last - (middle + 1)) (by omega)
      omega
    · rw [int32_bind_eq_ok] at h
      obtain ⟨_, h⟩ := h
      rw [int32_bind_eq_ok] at h
      obtain ⟨_, h⟩ := h
      rw [int32_bind_eq_ok] at h
      obtain ⟨_, h⟩ := h
      have hm' := hm hfl
      refine ih _ _ _ r h h0 (by omega) ?_
      intro hle
      have := tdiv_two_bounds (middle - 1 - first) (by omega)
      omega
    · simp only [Exec.ok.injEq] at h
      subst h
      exact ⟨h0, hb, fun hc => absurd hc hfl⟩

theorem searchLoop_ok (espFs : EspFs) (pathHash : Nat) :
    ∀ (fuel : Nat) (first last middle : Int),
      0 ≤ first → last < 2147483647 → first ≤ last + 1 →
      (first ≤ last → first ≤ middle ∧ middle ≤ last) →
      (last + 1 - first).toNat < fuel →
      ∃ r, searchLoop espFs pathHash fuel first last middle = .ok r := by
  intro fuel
  induction fuel with
  | zero => intro first last middle _ _ _ _ hf; omega
  | succ fuel ih =>
    intro first last middle h0 hl hfl1 hm hf
    simp only [searchLoop]
    split_ifs with hfl heq hlt
    · exact ⟨_, rfl⟩
    · have hm' := hm hfl
      have hd := tdiv_two_bounds_neg (last - (middle + 1)) (by omega)
      rw [int32_of_range (middle + 1) (by omega) (by omega)]
      simp only [Exec.ok_bind]
      rw [int32_of_range (last - (middle + 1)) (by omega) (by omega)]
      simp only [Exec.ok_bind]
      rw [int32_of_range _ (by omega) (by omega)]
      simp only [Exec.ok_bind]
      refine ih _ _ _ (by omega) hl (by omega) ?_ (by omega)
      intro hle
      have := tdiv_two_bounds (last - (middle + 1)) (by omega)
      omega
    · have hm' := hm hfl
      have hd := tdiv_two_bounds_neg (middle - 1 - first) (by omega)
      rw [int32_of_range (middle - 1) (by omega) (by omega)]
      simp only [Exec.ok_bind]
      rw [int32_of_range (middle - 1 - first) (by omega) (by omega)]
      simp only [Exec.ok_bind]
      rw [int32_of_range _ (by omega) (by omega)]
      simp only [Exec.ok_bind]
      refine ih _ _ _ h0 (by omega) (by omega) ?_ (by omega)
      intro hle
      have := tdiv_two_bounds (middle - 1 - first) (by omega)
      omega
    · exact ⟨_, rfl⟩

theorem rewindLoop_inv (espFs : EspFs) (pathHash : Nat) :
    ∀ (fuel : Nat) (middle r : Int), rewindLoop espFs pathHash fuel middle = .ok r →
      0 ≤ middle → 0 ≤ r ∧ r ≤ middle := by
  intro fuel
  induction fuel with
  | zero =>
    intro middle r h h0
    simp only [rewindLoop] at h
    split_ifs at h
    simp only [Exec.ok.injEq] at h
    omega
  | succ fuel ih =>
    intro middle r h h0
    simp only [rewindLoop] at h
    split_ifs at h with hpos hne
    · simp only [Exec.ok.injEq] at h
      omega
    · rw [int32_bind_eq_ok] at h
      have := ih _ _ h.2 (by omega)
      omega
    · simp only [Exec.ok.injEq] at h
      omega

theorem rewindLoop_ok (espFs : EspFs) (pathHash : Nat) :
    ∀ (fuel : Nat) (middle : Int), middle ≤ fuel → middle ≤ 2147483647 →
      ∃ r, rewindLoop espFs pathHash fuel middle = .ok r := by
  intro fuel
  induction fuel with
  | zero =>
    intro middle hf _
    simp only [rewindLoop]
    rw [if_neg (by omega)]
    exact ⟨_, rfl⟩
  | succ fuel ih =>
    intro middle hf hm
    simp only [rewindLoop]
    split_ifs with hpos hne
    · exact ⟨_, rfl⟩
    · rw [int32_of_range (middle - 1) (by omega) (by omega)]
      simp only [Exec.ok_bind]
      exact ih _ (by push_cast at hf; omega) (by omega)
    · exact ⟨_, rfl⟩

theorem scanLoop_sound (espFs : EspFs) (path : List Nat) (pathHash : Nat) (skip last : Int) :
    ∀ (fuel : Nat) (middle r : Int),
      scanLoop espFs path pathHash skip last fuel middle = .ok (some r) →
      0 ≤ middle → middle ≤ last →
      ∃ i : Int, 0 ≤ i ∧ i ≤ last ∧ r = entryOffset espFs i ∧
        strcmpEq espFs.header path (entryOffset espFs i + sizeofEspFsFileHeader) = true := by
  intro fuel
  induction fuel with
  | zero => intro middle r h; simp [scanLoop] at h
  | succ fuel ih =>
    intro middle r h h0 hl
    simp only [scanLoop] at h
    split_ifs at h with hhit
    · simp only [Exec.ok.injEq, Option.some.injEq] at h
      exact ⟨middle, h0, hl, h.symm, hhit.2⟩
    · rw [int32_bind_eq_ok] at h
      obtain ⟨_, h⟩ := h
      split_ifs at h with hnext
      · obtain ⟨i, hi0, hil, hr, hs⟩ := ih _ _ h (by omega) hnext.1
        exact ⟨i, hi0, hil, hr, hs⟩
      · simp at h

theorem scanLoop_ok (espFs : EspFs) (path : List Nat) (pathHash : Nat) (skip last : Int) :
    ∀ (fuel : Nat) (middle : Int), -2147483648 ≤ middle → middle ≤ last →
      last < 2147483647 → (last + 1 - middle).toNat < fuel + 1 →
      ∃ r, scanLoop espFs path pathHash skip last fuel middle = .ok r := by
  intro fuel
  induction fuel with
  | zero => intro middle _ _ _ hf; omega
  | succ fuel ih =>
    intro middle h0 hl hlast hf
    simp only [scanLoop]
    split_ifs with hhit
    · exact ⟨_, rfl⟩
    · rw [int32_of_range (middle + 1) (by omega) (by omega)]
      simp only [Exec.ok_bind]
      split_ifs with hnext
      · exact ih _ (by omega) hnext.1 hlast (by omega)
      · exact ⟨_, rfl⟩

/-! ## The lookup: soundness and termination -/

theorem espFsFindObject_sound_aux (espFs : EspFs) (path : List Nat) (r : Int)
    (h : espFsFindObject espFs path = .ok (some r)) :
    ∃ i : Int, 0 ≤ i ∧ i < espFs.numFiles ∧ r = entryOffset espFs i ∧
      strcmpEq espFs.header (stripSlash path)
        (entryOffset espFs i + sizeofEspFsFileHeader) = true := by
  unfold espFsFindObject at h
  rw [Exec.bind_eq_ok] at h
  obtain ⟨⟨first, last, middle⟩, hsearch, h⟩ := h
  have hlast := lastInit_lt espFs.numFiles
  have hinv := searchLoop_inv espFs _ (espFs.numFiles - 1) _ _ _ _ _ hsearch (le_refl 0)
    (by omega) (fun hle => by
      have := tdiv_two_bounds _ hle
      omega)
  simp only at hinv h
  unfold findCandidate at h
  split_ifs at h with hgt hopt
  · simp at h
  · simp only [Exec.ok.injEq, Option.some.injEq] at h
    have hb := hinv.2.2 (by omega)
    exact ⟨middle, by omega, by omega, h.symm, hopt⟩
  · have hb := hinv.2.2 (by omega)
    rw [Exec.bind_eq_ok] at h
    obtain ⟨m, hrew, h⟩ := h
    have hm := rewindLoop_inv espFs _ _ _ _ hrew (by omega)
    obtain ⟨i, hi0, hil, hr, hs⟩ := scanLoop_sound espFs _ _ _ _ _ _ _ h hm.1 (by omega)
    exact ⟨i, hi0, by omega, hr, hs⟩

theorem espFsFindObject_sound (espFs : EspFs) (path : List Nat) (r : Int)
    (h : espFsFindObject espFs path = .ok (some r)) :
    (∃ i : Nat, i < espFs.numFiles ∧ r = entryOffset espFs i) ∧
      StoresPath espFs.header r (stripLeadingSlash path) := by
  obtain ⟨i, hi0, hil, hr, hs⟩ := espFsFindObject_sound_aux espFs path r h
  refine ⟨⟨i.toNat, by omega, ?_⟩, ?_⟩
  · rw [hr, Int.toNat_of_nonneg hi0]
  · rw [strcmpEq_iff] at hs
    rw [← stripSlash_eq, hr]
    exact hs

theorem espFsFindObject_ok (espFs : EspFs) (path : List Nat)
    (hn : espFs.numFiles < 2147483648) : ∃ r, espFsFindObject espFs path = .ok r := by
  have hlast := lastInit_eq espFs.numFiles hn
  obtain ⟨⟨first, last, middle⟩, hsearch⟩ := searchLoop_ok espFs (hashPath (stripSlash path))
    (espFs.numFiles + 1) 0 (lastInit espFs.numFiles) ((lastInit espFs.numFiles).tdiv 2)
    (le_refl 0) (by omega) (by omega)
    (fun hle => by
      have := tdiv_two_bounds _ hle
      omega)
    (by omega)
  have hinv := searchLoop_inv espFs _ (espFs.numFiles - 1) _ _ _ _ _ hsearch (le_refl 0)
    (by omega) (fun hle => by
      have := tdiv_two_bounds _ hle
      omega)
  simp only at hinv
  unfold espFsFindObject
  rw [hsearch]
  simp only [Exec.ok_bind]
  unfold findCandidate
  split_ifs with hgt hopt
  · exact ⟨_, rfl⟩
  · exact ⟨_, rfl⟩
  · have hb := hinv.2.2 (by omega)
    obtain ⟨m, hrew⟩ := rewindLoop_ok espFs (hashPath (stripSlash path)) middle.toNat middle
      (by omega) (by omega)
    have hm := rewindLoop_inv espFs _ _ _ _ hrew (by omega)
    rw [hrew]
    simp only [Exec.ok_bind]
    exact scanLoop_ok espFs _ _ _ _ _ _ (by omega) (by omega) (by omega) (by omega)

/-- C2 (as amended): for every handle and every path, a record returned by
`espFsFindObject` lies at the offset of some hash table entry below `numFiles`, and the
path it stores is the queried path with one leading slash removed; consequently, when
`numFiles < 2^31` and no table entry's record stores that path, the result is `NULL`. -/
theorem espFsFindObject_returns_stored (espFs : EspFs) (path : List Nat) :
    (∀ r : Int, espFsFindObject espFs path = .ok (some r) →
      (∃ i : Nat, i < espFs.numFiles ∧ r = entryOffset espFs i) ∧
        StoresPath espFs.header r (stripLeadingSlash path)) ∧
    (espFs.numFiles < 2147483648 →
      (∀ i : Nat, i < espFs.numFiles →
        ¬ StoresPath espFs.header (entryOffset espFs i) (stripLeadingSlash path)) →
      espFsFindObject espFs path = .ok none) := by
  refine ⟨fun r h => espFsFindObject_sound espFs path r h, fun hn hno => ?_⟩
  obtain ⟨res, hres⟩ := espFsFindObject_ok espFs path hn
  cases res with
  | none => exact hres
  | some r =>
    obtain ⟨⟨i, hi, hr⟩, hs⟩ := espFsFindObject_sound espFs path r hres
    rw [hr] at hs
    exact absurd hs (hno i hi)

theorem espFsFindObject_returns_stored_witness :
    espFsFindObject collisionFs (bytes "/zz") = .ok (some 132) ∧
    ((∃ i : Nat, i < collisionFs.numFiles ∧ (132 : Int) = entryOffset collisionFs i) ∧
      StoresPath collisionFs.header 132 (stripLeadingSlash (bytes "/zz"))) ∧
    collisionFs.numFiles < 2147483648 ∧
    (∀ i : Nat, i < collisionFs.numFiles →
      ¬ StoresPath collisionFs.header (entryOffset collisionFs i)
        (stripLeadingSlash (bytes "q"))) ∧
    espFsFindObject collisionFs (bytes "q") = .ok none :=
  ⟨by decide,
   (espFsFindObject_returns_stored collisionFs (bytes "/zz")).1 132 (by decide),
   by decide, by decide,
   (espFsFindObject_returns_stored collisionFs (bytes "q")).2 (by decide) (by decide)⟩

theorem memOfBytes_beyond (bs : List Nat) (a : Int) (h : (bs.length : Int) ≤ a) :
    memOfBytes bs a = 0 := by
  unfold memOfBytes
  rw [if_neg (by omega)]
  exact List.getD_eq_default _ _ (by omega)

/-- C2 (counterexample): on a handle with `numFiles = 2^31` whose table entries all have
hash 0 and offset 0, no entry's record stores the path `a`, yet the lookup of `a` does not
return `NULL`: the binary search moves right until `first = middle + 1` overflows. -/
theorem espFsFindObject_huge_table_undefined :
    (∀ i : Nat, i < hugeFs.numFiles →
      ¬ StoresPath hugeFs.header (entryOffset hugeFs i) (stripLeadingSlash (bytes "a"))) ∧
    espFsFindObject hugeFs (bytes "a") = .undefined ∧
    espFsFindObject hugeFs (bytes "a") ≠ .ok none := by
  refine ⟨?_, by decide, by decide⟩
  intro i _
  have hz : ∀ a : Int, 0 ≤ a → hugeFs.hashTable a = 0 := fun a ha =>
    memOfBytes_beyond _ _ (by
      simp only [le32, List.length_append, List.length_cons, List.length_nil, sizeofEspFsHeader]
      omega)
  have hoff : entryOffset hugeFs i = 0 := by
    simp only [entryOffset, rd32, rd8, sizeofEspFsHashTableEntry]
    rw [hz _ (by omega), hz _ (by omega), hz _ (by omega), hz _ (by omega)]
  rw [hoff]
  decide

/-- C1 (evaluation at the failing input): the image of `collisionFiles` is accepted by
`espFsInit` and well formed, and its record at offset 102 (table index 3) stores the path
`ab`, which has the same hash as `bA` at index 4; the lookup of `ab` returns `NULL`, while
`bA` is found. -/
theorem espFsFindObject_collision_miss :
    (espFsInit (memOfBytes (imageBytes collisionFiles)) false true none).isSome = true ∧
    WellFormed collisionFs (collisionFiles.map TestFile.path) ∧
    (collisionFiles.map TestFile.path).getD 3 [] = bytes "ab" ∧
    entryOffset collisionFs 3 = 102 ∧
    entryHash collisionFs 3 = entryHash collisionFs 4 ∧
    entryHash collisionFs 1 ≠ entryHash collisionFs 3 ∧
    espFsFindObject collisionFs (bytes "ab") = .ok none ∧
    espFsFindObject collisionFs (bytes "bA") = .ok (some 117) := by
  decide

/-- C3: for every handle and every path `p`, the lookup of `p` and the lookup of a slash
followed by `p` without its one leading slash give the same result; only one slash is
removed: a record returned for a path with two leading slashes stores the rest of the path
with one slash in front. -/
theorem espFsFindObject_leading_slash (espFs : EspFs) (p : List Nat) :
    espFsFindObject espFs p = espFsFindObject espFs (47 :: stripLeadingSlash p) ∧
    ∀ (rest : List Nat) (r : Int), p = 47 :: 47 :: rest →
      espFsFindObject espFs p = .ok (some r) → StoresPath espFs.header r (47 :: rest) := by
  constructor
  · unfold espFsFindObject
    rw [show stripSlash (47 :: stripLeadingSlash p) = stripLeadingSlash p from rfl,
      stripSlash_eq]
  · intro rest r hp h
    have hs := (espFsFindObject_sound espFs p r h).2
    rw [hp] at hs
    exact hs

theorem espFsFindObject_leading_slash_witness :
    espFsFindObject slashFs (bytes "//a") = .ok (some 20) ∧
    espFsFindObject slashFs (bytes "/a") = .ok none ∧
    espFsFindObject slashFs (bytes "//a")
      = espFsFindObject slashFs (47 :: stripLeadingSlash (bytes "//a")) ∧
    StoresPath slashFs.header 20 (47 :: bytes "a") :=
  ⟨by decide, by decide,
   (espFsFindObject_leading_slash slashFs (bytes "//a")).1,
   (espFsFindObject_leading_slash slashFs (bytes "//a")).2 (bytes "a") 20 (by decide)
     (by decide)⟩

/-! ## `espFsStat` and `espFsOpen` -/

/-- C5 (as amended): for every handle, every stat object and every non-empty path `p` that
does not end in a slash, when the copy of the path can be allocated, `espFsStat` of `p`
followed by a slash returns what `espFsStat` of `p` returns (truth value and metadata); in
the scenario image whose directory record stores `dir`, the paths `dir` and `dir/` both
report a directory. -/
theorem espFsStat_trailing_slash (espFs : EspFs) (p : List Nat) (stat : Option EspFsStat)
    (c : Nat) (hlast : p.getLast? = some c) (hc : c ≠ 47) :
    espFsStat espFs (p ++ [47]) stat true = espFsStat espFs p stat true ∧
    espFsStat dirFs (bytes "dir") (some stat0) true
      = .ok (true, some { flags := 1, compress := 0, size := 0 }) ∧
    espFsStat dirFs (bytes "dir/") (some stat0) true
      = .ok (true, some { flags := 1, compress := 0, size := 0 }) := by
  refine ⟨?_, by decide, by decide⟩
  unfold espFsStat
  rw [List.getLast?_concat, hlast]
  dsimp only
  rw [if_neg (show ¬((47 : Nat) = 47 ∧ true = false) from fun h => Bool.noConfusion h.2),
    if_neg (show ¬(c = 47 ∧ true = false) from fun h => Bool.noConfusion h.2),
    if_pos (rfl : (47 : Nat) = 47), if_neg hc, List.dropLast_concat]

theorem espFsStat_trailing_slash_witness :
    (bytes "a.txt").getLast? = some 116 ∧
    (espFsStat specFs (bytes "a.txt" ++ [47]) (some stat0) true
        = espFsStat specFs (bytes "a.txt") (some stat0) true ∧
      espFsStat dirFs (bytes "dir") (some stat0) true
        = .ok (true, some { flags := 1, compress := 0, size := 0 }) ∧
      espFsStat dirFs (bytes "dir/") (some stat0) true
        = .ok (true, some { flags := 1, compress := 0, size := 0 })) ∧
    espFsStat specFs (bytes "a.txt") (some stat0) true
      = .ok (true, some { flags := 0, compress := 0, size := 5 }) :=
  ⟨by decide,
   espFsStat_trailing_slash specFs (bytes "a.txt") (some stat0) 116 (by decide) (by decide),
   by decide⟩

/-- C5 (counterexample): in the scenario image of the specification, whose directory
record stores `dir/`, the paths `dir` and `dir/` are both not found; for the path `dir/`,
which ends in a slash, appending a slash changes the result; when the copy of the path
cannot be allocated `a.txt/` is not found although `a.txt` is; for the empty path the code
reads in front of the string. -/
theorem espFsStat_trailing_slash_fails :
    WellFormed specFs [bytes "a.txt", bytes "dir/"] ∧
    espFsStat specFs (bytes "dir") (some stat0) true = .ok (false, some stat0) ∧
    espFsStat specFs (bytes "dir/") (some stat0) true = .ok (false, some stat0) ∧
    espFsStat specFs (bytes "dir/" ++ [47]) (some stat0) true
      = .ok (true, some { flags := 1, compress := 0, size := 0 }) ∧
    espFsStat specFs (bytes "a.txt" ++ [47]) (some stat0) false = .ok (false, some stat0) ∧
    espFsStat specFs (bytes "a.txt") (some stat0) false
      = .ok (true, some { flags := 0, compress := 0, size := 5 }) ∧
    espFsStat specFs [] (some stat0) true = .undefined ∧
    espFsStat specFs ([] ++ [47]) (some stat0) true = .ok (false, some stat0) := by
  decide

/-- C6 (evaluation at the failing input): in the scenario image the path `missing` is not
resolved, and `espFsOpen` does not return `NULL`: it goes on to read `header->flags`
through the `NULL` pointer. -/
theorem espFsOpen_missing_undefined :
    (espFsInit (memOfBytes (imageBytes [fileA, dirB "dir/"])) false true none).isSome = true ∧
    espFsFindObject specFs (bytes "missing") = .ok none ∧
    espFsOpen (none : Option (Heatshrink Unit)) specFs (bytes "missing") true = .undefined ∧
    espFsOpen (none : Option (Heatshrink Unit)) specFs (bytes "missing") true ≠ .ok none := by
  decide

/-- Unfolding of `espFsOpen` for a path that resolves to the record at `r`, with the handle
allocated. -/
theorem espFsOpen_of_found {D : Type} (hs : Option (Heatshrink D)) (espFs : EspFs)
    (path : List Nat) (r : Int) (h : espFsFindObject espFs path = .ok (some r)) :
    espFsOpen hs espFs path true =
      if fhFlags espFs.header r % 2 = 1 then .ok none
      else if fhCompress espFs.header r = 0 then
        .ok (some
          { header := r,
            flags := fhFlags espFs.header r,
            compress := fhCompress espFs.header r,
            pathLen := fhPathLen espFs.header r,
            fsSize := fhFsSize espFs.header r,
            actualSize := fhActualSize espFs.header r,
            decompPos := 0,
            fsPtr := r + 12 + fhPathLen espFs.header r,
            fsStartPtr := r + 12 + fhPathLen espFs.header r,
            decompData := none })
      else match hs with
        | some hsd =>
          if fhCompress espFs.header r = 1 then
            .ok (some
              { header := r,
                flags := fhFlags espFs.header r,
                compress := fhCompress espFs.header r,
                pathLen := fhPathLen espFs.header r,
                fsSize := (fhFsSize espFs.header r + 4294967295) % 4294967296,
                actualSize := fhActualSize espFs.header r,
                decompPos := 0,
                fsPtr := r + 12 + fhPathLen espFs.header r + 1,
                fsStartPtr := r + 12 + fhPathLen espFs.header r + 1,
                decompData := hsd.alloc 16
                  (rd8 espFs.header (r + 12 + fhPathLen espFs.header r) >>> 4)
                  (rd8 espFs.header (r + 12 + fhPathLen espFs.header r) &&& 15) })
          else .ok none
        | none => .ok none := by
  have hflag : (fhFlags espFs.header r &&& ESPFS_FLAG_DIR ≠ 0) ↔ fhFlags espFs.header r % 2 = 1 := by
    unfold ESPFS_FLAG_DIR
    rw [Nat.and_one_is_mod]
    omega
  unfold espFsOpen
  rw [h, Exec.ok_bind]
  dsimp only
  by_cases hd : fhFlags espFs.header r % 2 = 1
  · rw [if_pos (hflag.2 hd), if_pos hd]
  · rw [if_neg (fun hc => hd (hflag.1 hc)), if_neg hd,
      if_neg (show ¬((!true) = true) from by decide)]
    rfl

/-- C7: for a path that resolves to the record at `r`, with the handle allocated,
`espFsOpen` returns a handle if and only if bit 0 of the record's flags is clear and its
compress tag is 0, or 1 with the decoder compiled in; a directory record is rejected
whatever its compress tag, a record with any other tag is rejected, and a returned handle
has logical position 0. -/
theorem espFsOpen_accepts_iff {D : Type} (hs : Option (Heatshrink D)) (espFs : EspFs)
    (path : List Nat) (r : Int) (h : espFsFindObject espFs path = .ok (some r)) :
    ((∃ file, espFsOpen hs espFs path true = .ok (some file)) ↔
      fhFlags espFs.header r % 2 = 0 ∧
        (fhCompress espFs.header r = 0 ∨
          (fhCompress espFs.header r = 1 ∧ hs.isSome = true))) ∧
    (fhFlags espFs.header r % 2 = 1 → espFsOpen hs espFs path true = .ok none) ∧
    (fhCompress espFs.header r ≠ 0 →
      ¬(fhCompress espFs.header r = 1 ∧ hs.isSome = true) →
      espFsOpen hs espFs path true = .ok none) ∧
    (∀ file, espFsOpen hs espFs path true = .ok (some file) → file.decompPos = 0) := by
  rw [espFsOpen_of_found hs espFs path r h]
  by_cases hd : fhFlags espFs.header r % 2 = 1
  · rw [if_pos hd]
    refine ⟨⟨fun ⟨_, hf⟩ => ?_, fun hc => ?_⟩, fun _ => rfl, fun _ _ => rfl, fun _ hf => ?_⟩
    · exact absurd hf (by simp)
    · omega
    · exact absurd hf (by simp)
  · have hd0 : fhFlags espFs.header r % 2 = 0 := by omega
    rw [if_neg hd]
    by_cases hc : fhCompress espFs.header r = 0
    · rw [if_pos hc]
      refine ⟨⟨fun _ => ⟨hd0, Or.inl hc⟩, fun _ => ⟨_, rfl⟩⟩, fun h1 => absurd h1 hd,
        fun h0 => absurd hc h0, fun file hf => ?_⟩
      simp only [Exec.ok.injEq, Option.some.injEq] at hf
      rw [← hf]
    · rw [if_neg hc]
      cases hs with
      | none =>
        refine ⟨⟨fun ⟨_, hf⟩ => ?_, fun hcond => ?_⟩, fun h1 => absurd h1 hd, fun _ _ => rfl,
          fun _ hf => ?_⟩
        · exact absurd hf (by simp)
        · rcases hcond.2 with h0 | ⟨_, hsome⟩
          · exact absurd h0 hc
          · exact absurd hsome (by simp)
        · exact absurd hf (by simp)
      | some hsd =>
        dsimp only
        by_cases h1 : fhCompress espFs.header r = 1
        · rw [if_pos h1]
          refine ⟨⟨fun _ => ⟨hd0, Or.inr ⟨h1, rfl⟩⟩, fun _ => ⟨_, rfl⟩⟩, fun h1 => absurd h1 hd,
            fun _ hn => absurd ⟨h1, rfl⟩ hn, fun file hf => ?_⟩
          simp only [Exec.ok.injEq, Option.some.injEq] at hf
          rw [← hf]
        · rw [if_neg h1]
          refine ⟨⟨fun ⟨_, hf⟩ => ?_, fun hcond => ?_⟩, fun h1 => absurd h1 hd,
            fun _ _ => rfl, fun _ hf => ?_⟩
          · exact absurd hf (by simp)
          · rcases hcond.2 with h0 | ⟨h1', _⟩
            · exact absurd h0 hc
            · exact absurd h1' h1
          · exact absurd hf (by simp)

theorem espFsOpen_accepts_iff_witness :
    espFsFindObject specFs (bytes "a.txt") = .ok (some 28) ∧
    (∃ file, espFsOpen (none : Option (Heatshrink Unit)) specFs (bytes "a.txt") true
      = .ok (some file)) ∧
    espFsOpen (none : Option (Heatshrink Unit)) specFs (bytes "a.txt") true
      = .ok (some { header := 28, flags := 0, compress := 0, pathLen := 6, fsSize := 5,
                    actualSize := 5, decompPos := 0, fsPtr := 46, fsStartPtr := 46,
                    decompData := none }) ∧
    espFsOpen (none : Option (Heatshrink Unit)) dirFs (bytes "dir") true = .ok none :=
  ⟨by decide,
   (espFsOpen_accepts_iff (none : Option (Heatshrink Unit)) specFs (bytes "a.txt") 28
      (by decide)).1.2 ⟨by decide, Or.inl (by decide)⟩,
   by decide, by decide⟩

/-! ## `espFsRead` and `espFsSeek` on uncompressed handles -/

theorem toInt32_of_range (x : Int) (h1 : -2147483648 ≤ x) (h2 : x ≤ 2147483647) :
    toInt32 x = x := by
  unfold toInt32
  omega

theorem toUInt32_of_range (x : Int) (h1 : 0 ≤ x) (h2 : x ≤ 4294967295) :
    (toUInt32 x : Int) = x := by
  unfold toUInt32
  omega

theorem rdBytes_length (m : Mem) (n : Nat) : ∀ a : Int, (rdBytes m a n).length = n := by
  induction n with
  | zero => intro a; rfl
  | succ n ih => intro a; simp only [rdBytes, List.length_cons, ih]

theorem rdBytes_add (m : Mem) (k j : Nat) :
    ∀ a : Int, rdBytes m a (k + j) = rdBytes m a k ++ rdBytes m (a + k) j := by
  induction k with
  | zero => intro a; simp [rdBytes]
  | succ k ih =>
    intro a
    rw [show k + 1 + j = (k + j) + 1 by omega]
    simp only [rdBytes, List.cons_append, ih]
    rw [show a + 1 + (k : Int) = a + ((k + 1 : Nat) : Int) by push_cast; omega]

/-- Remaining stored bytes of an uncompressed handle at position `pos`, as the `int` the
code computes, when the stored size is below `2^31`. -/
theorem fsRemain_of_uncompressed {D : Type} (file : EspFsFile D) (pos : Nat)
    (hfile : UncompressedAt file pos) (hsize : file.fsSize < 2147483648) :
    toInt32 (fsRemainOf file) = (file.fsSize : Int) - pos := by
  obtain ⟨_, hptr, _, hpos⟩ := hfile
  unfold fsRemainOf toInt32 toUInt32
  rw [hptr]
  omega

/-- The uncompressed branch of `espFsRead` when nothing overflows: it copies `n` bytes
from the cursor and advances both positions by `n`. -/
theorem espFsRead_uncompressed_aux {D : Type} (hs : Option (Heatshrink D)) (m : Mem)
    (fuel : Nat) (file : EspFsFile D) (pos : Nat) (len : Int) (n : Nat)
    (hfile : UncompressedAt file pos) (hsize : file.fsSize < 2147483648)
    (hlen0 : 0 ≤ len) (hn : n = min len.toNat (file.fsSize - pos)) :
    espFsRead hs m fuel file len =
      .ok ({ file with decompPos := (pos : Int) + n, fsPtr := file.fsPtr + n },
           rdBytes m file.fsPtr n, (n : Int)) := by
  have hrem := fsRemain_of_uncompressed file pos hfile hsize
  obtain ⟨hcomp, hptr, hdec, hpos⟩ := hfile
  unfold espFsRead
  rw [if_neg (by omega), if_pos hcomp]
  dsimp only
  rw [hrem]
  have hclamp : (if len > (file.fsSize : Int) - pos then (file.fsSize : Int) - pos else len)
      = (n : Int) := by
    split_ifs with hgt <;> omega
  rw [hclamp, if_neg (by omega), hdec, int32_of_range _ (by omega) (by omega), Exec.ok_bind,
    Int.toNat_ofNat]

/-- One call of `espFsRead` on an uncompressed handle whose stored size is below `2^31`. -/
theorem espFsRead_uncompressed_step {D : Type} (hs : Option (Heatshrink D)) (m : Mem)
    (fuel : Nat) (file : EspFsFile D) (pos : Nat) (len : Int) (n : Nat)
    (hfile : UncompressedAt file pos) (hsize : file.fsSize < 2147483648)
    (hlen0 : 0 ≤ len) (hn : n = min len.toNat (file.fsSize - pos)) :
    espFsRead hs m fuel file len =
      .ok ({ file with decompPos := ((pos + n : Nat) : Int),
                       fsPtr := file.fsStartPtr + ((pos + n : Nat) : Int) },
           rdBytes m (file.fsStartPtr + pos) n, (n : Int)) ∧
    UncompressedAt { file with decompPos := ((pos + n : Nat) : Int),
                               fsPtr := file.fsStartPtr + ((pos + n : Nat) : Int) } (pos + n) ∧
    (pos = file.fsSize → espFsRead hs m fuel file len = .ok (file, [], 0)) := by
  have haux := espFsRead_uncompressed_aux hs m fuel file pos len n hfile hsize hlen0 hn
  obtain ⟨hcomp, hptr, hdec, hpos⟩ := hfile
  have hstate : ({ file with decompPos := (pos : Int) + n, fsPtr := file.fsPtr + n } :
      EspFsFile D) = { file with decompPos := ((pos + n : Nat) : Int),
                                 fsPtr := file.fsStartPtr + ((pos + n : Nat) : Int) } := by
    rw [hptr]
    congr 1
    all_goals (push_cast; omega)
  refine ⟨?_, ⟨hcomp, rfl, rfl, show pos + n ≤ file.fsSize by omega⟩, fun hend => ?_⟩
  · rw [haux, hstate, hptr]
  · have hn0 : n = 0 := by omega
    rw [haux, hn0]
    have hsame :
        ({ file with
            decompPos := (pos : Int) + ((0 : Nat) : Int),
            fsPtr := file.fsPtr + ((0 : Nat) : Int) } : EspFsFile D) = file := by
      cases file
      simp only [Nat.cast_zero, add_zero, EspFsFile.mk.injEq, true_and, and_true]
      exact hdec.symm
    rw [hsame]
    rfl

/-- C8 (as amended): for an open uncompressed handle whose stored size is below `2^31`, at
stored position `pos`, and every `len >= 0`, `espFsRead` returns
`n = min(len, storedSize - pos)`, writes the `n` stored bytes that start at position `pos`,
and advances the stored and the logical position by `n`; at `pos = storedSize` it returns 0,
writes nothing and leaves the handle as it is. -/
theorem espFsRead_uncompressed {D : Type} (hs : Option (Heatshrink D)) (m : Mem)
    (fuel : Nat) (file : EspFsFile D) (pos : Nat) (len : Int) (n : Nat)
    (hfile : UncompressedAt file pos) (hsize : file.fsSize < 2147483648)
    (hlen0 : 0 ≤ len) (hn : n = min len.toNat (file.fsSize - pos)) :
    espFsRead hs m fuel file len =
      .ok ({ file with decompPos := ((pos + n : Nat) : Int),
                       fsPtr := file.fsStartPtr + ((pos + n : Nat) : Int) },
           rdBytes m (file.fsStartPtr + pos) n, (n : Int)) ∧
    UncompressedAt { file with decompPos := ((pos + n : Nat) : Int),
                               fsPtr := file.fsStartPtr + ((pos + n : Nat) : Int) } (pos + n) ∧
    (pos = file.fsSize → espFsRead hs m fuel file len = .ok (file, [], 0)) :=
  espFsRead_uncompressed_step hs m fuel file pos len n hfile hsize hlen0 hn

theorem espFsRead_uncompressed_witness :
    UncompressedAt (fileAAt 0) 0 ∧
    espFsOpen (none : Option (Heatshrink Unit)) specFs (bytes "a.txt") true
      = .ok (some (fileAAt 0)) ∧
    espFsRead (none : Option (Heatshrink Unit)) specFs.header 0 (fileAAt 0) 16
      = .ok (fileAAt 5, bytes "hello", 5) ∧
    espFsRead (none : Option (Heatshrink Unit)) specFs.header 0 (fileAAt 5) 16
      = .ok (fileAAt 5, [], 0) :=
  ⟨by decide, by decide,
   ((espFsRead_uncompressed (none : Option (Heatshrink Unit)) specFs.header 0 (fileAAt 0) 0 16 5
      (by decide) (by decide) (by decide) (by decide)).1).trans (by decide),
   (espFsRead_uncompressed (none : Option (Heatshrink Unit)) specFs.header 0 (fileAAt 5) 5 16 0
      (by decide) (by decide) (by decide) (by decide)).2.2 (by decide)⟩

/-- C8 (counterexample): the image `bigBytes (2^31)` holds one uncompressed file whose
record gives `2^31` as its stored size; `espFsOpen` returns a handle for it at stored
position 0, and `espFsRead` with `len = 1` does not return `min(1, 2^31) = 1`: the
remaining size converted to `int` is `-2^31`, `len` becomes negative and goes to `memcpy`. -/
theorem espFsRead_huge_file_fails :
    espFsOpen (none : Option (Heatshrink Unit)) (bigFs 2147483648) (bytes "big") true
      = .ok (some (bigFile 2147483648)) ∧
    UncompressedAt (bigFile 2147483648) 0 ∧
    toInt32 (fsRemainOf (bigFile 2147483648)) = -2147483648 ∧
    espFsRead (none : Option (Heatshrink Unit)) (bigFs 2147483648).header 0
      (bigFile 2147483648) 1 = .undefined := by
  decide

theorem rdBytes_take (m : Mem) (n : Nat) :
    ∀ (k : Nat) (a : Int), rdBytes m a (min k n) = (rdBytes m a n).take k := by
  induction n with
  | zero => intro k a; simp [rdBytes]
  | succ n ih =>
    intro k a
    cases k with
    | zero => simp [rdBytes]
    | succ k =>
      rw [show min (k + 1) (n + 1) = min k n + 1 by omega]
      simp only [rdBytes, List.take_succ_cons, ih]

theorem sum_nonneg_of_pos (lens : List Int) (h : ∀ l ∈ lens, 0 < l) : 0 ≤ lens.sum := by
  induction lens with
  | nil => simp
  | cons l lens ih =>
    rw [List.sum_cons]
    have h1 := h l (List.mem_cons_self l lens)
    have h2 := ih (fun x hx => h x (List.mem_cons_of_mem l hx))
    omega

/-- Successive reads on an uncompressed handle at position `pos` produce the stored bytes
from `pos` on, as many as the lengths sum to, and at most those that remain. -/
theorem readAll_uncompressed {D : Type} (hs : Option (Heatshrink D)) (m : Mem) (fuel : Nat) :
    ∀ (lens : List Int) (file : EspFsFile D) (pos : Nat),
      UncompressedAt file pos → file.fsSize < 2147483648 → (∀ l ∈ lens, 0 < l) →
      ∃ file' rets,
        readAll hs m fuel file lens =
          .ok (file', rdBytes m (file.fsStartPtr + pos) (min lens.sum.toNat (file.fsSize - pos)),
               rets) ∧
        UncompressedAt file' (pos + min lens.sum.toNat (file.fsSize - pos)) ∧
        file'.fsSize = file.fsSize ∧ file'.fsStartPtr = file.fsStartPtr := by
  intro lens
  induction lens with
  | nil =>
    intro file pos hfile _ _
    refine ⟨file, [], ?_, ?_, rfl, rfl⟩
    · simp [readAll, rdBytes]
    · simpa using hfile
  | cons len lens ih =>
    intro file pos hfile hsize hlens
    have hlen := hlens len (List.mem_cons_self len lens)
    have hrest : ∀ l ∈ lens, 0 < l := fun x hx => hlens x (List.mem_cons_of_mem len hx)
    have hsum := sum_nonneg_of_pos lens hrest
    obtain ⟨hread, hfile1, _⟩ := espFsRead_uncompressed_step hs m fuel file pos len
      (min len.toNat (file.fsSize - pos)) hfile hsize (by omega) rfl
    obtain ⟨file', rets, hall, hfile', hsz, hst⟩ := ih _ _ hfile1 hsize hrest
    refine ⟨file', ((min len.toNat (file.fsSize - pos) : Nat) : Int) :: rets, ?_, ?_, hsz, hst⟩
    · simp only [readAll]
      rw [hread, Exec.ok_bind, hall, Exec.ok_bind]
      have hk : min (len :: lens).sum.toNat (file.fsSize - pos)
          = min len.toNat (file.fsSize - pos)
            + min lens.sum.toNat (file.fsSize - (pos + min len.toNat (file.fsSize - pos))) := by
        rw [List.sum_cons]
        omega
      rw [hk, rdBytes_add]
      dsimp only
      rw [show file.fsStartPtr + ((pos + min len.toNat (file.fsSize - pos) : Nat) : Int)
          = file.fsStartPtr + (pos : Int) + ((min len.toNat (file.fsSize - pos) : Nat) : Int) by
        push_cast; omega]
    · have hk : min (len :: lens).sum.toNat (file.fsSize - pos)
          = min len.toNat (file.fsSize - pos)
            + min lens.sum.toNat (file.fsSize - (pos + min len.toNat (file.fsSize - pos))) := by
        rw [List.sum_cons]
        omega
      rw [hk, ← Nat.add_assoc]
      exact hfile'

/-- A handle `espFsOpen` returns with compress tag 0 is an uncompressed handle at stored
position 0 whose stored bytes start after the 12-byte file header and the `pathLen` path
bytes of its record and whose stored size is the record's `fsSize`. -/
theorem espFsOpen_uncompressed {D : Type} (hs : Option (Heatshrink D)) (espFs : EspFs)
    (path : List Nat) (file : EspFsFile D)
    (hopen : espFsOpen hs espFs path true = .ok (some file))
    (hc : file.compress = ESPFS_COMPRESS_NONE) :
    UncompressedAt file 0 ∧
    file.fsStartPtr = file.header + sizeofEspFsFileHeader + fhPathLen espFs.header file.header ∧
    file.fsSize = fhFsSize espFs.header file.header := by
  have hfound : ∃ r, espFsFindObject espFs path = .ok (some r) := by
    unfold espFsOpen at hopen
    rw [Exec.bind_eq_ok] at hopen
    obtain ⟨found, hfound, hrest⟩ := hopen
    cases found with
    | none => exact absurd hrest (by simp)
    | some r => exact ⟨r, hfound⟩
  obtain ⟨r, hr⟩ := hfound
  rw [espFsOpen_of_found hs espFs path r hr] at hopen
  by_cases hd : fhFlags espFs.header r % 2 = 1
  · rw [if_pos hd] at hopen
    exact absurd hopen (by simp)
  · rw [if_neg hd] at hopen
    by_cases h0 : fhCompress espFs.header r = 0
    · rw [if_pos h0] at hopen
      simp only [Exec.ok.injEq, Option.some.injEq] at hopen
      subst hopen
      exact ⟨⟨h0, by simp, rfl, Nat.zero_le _⟩, rfl, rfl⟩
    · rw [if_neg h0] at hopen
      cases hs with
      | none => exact absurd hopen (by simp)
      | some hsd =>
        dsimp only at hopen
        by_cases h1 : fhCompress espFs.header r = 1
        · rw [if_pos h1] at hopen
          simp only [Exec.ok.injEq, Option.some.injEq] at hopen
          subst hopen
          exact absurd hc h0
        · rw [if_neg h1] at hopen
          exact absurd hopen (by simp)

/-- C9 (as amended): for an uncompressed file record whose stored size is below `2^31` and
every sequence of positive read lengths, the bytes that successive `espFsRead` calls on the
freshly opened handle produce, one after the other, are the first bytes of the record's
payload, as many as the lengths sum to, hence a prefix of the payload; once the lengths sum
to at least the stored size they are the whole payload and every further read returns 0 and
writes nothing. -/
theorem readAll_payload_prefix {D : Type} (hs : Option (Heatshrink D)) (espFs : EspFs)
    (path : List Nat) (file : EspFsFile D) (fuel : Nat) (lens : List Int)
    (hopen : espFsOpen hs espFs path true = .ok (some file))
    (hc : file.compress = ESPFS_COMPRESS_NONE) (hsize : file.fsSize < 2147483648)
    (hlens : ∀ l ∈ lens, 0 < l) :
    ∃ file' rets,
      readAll hs espFs.header fuel file lens =
        .ok (file', (payloadOf espFs.header file.header).take lens.sum.toNat, rets) ∧
      (payloadOf espFs.header file.header).take lens.sum.toNat
        <+: payloadOf espFs.header file.header ∧
      ((file.fsSize : Int) ≤ lens.sum →
        (payloadOf espFs.header file.header).take lens.sum.toNat
          = payloadOf espFs.header file.header ∧
        ∀ len : Int, 0 ≤ len →
          espFsRead hs espFs.header fuel file' len = .ok (file', [], 0)) := by
  obtain ⟨hfile, hstart, hfs⟩ := espFsOpen_uncompressed hs espFs path file hopen hc
  obtain ⟨file', rets, hall, hfile', hsz, _⟩ :=
    readAll_uncompressed hs espFs.header fuel lens file 0 hfile hsize hlens
  have hbytes : rdBytes espFs.header (file.fsStartPtr + ((0 : Nat) : Int))
      (min lens.sum.toNat (file.fsSize - 0))
      = (payloadOf espFs.header file.header).take lens.sum.toNat := by
    unfold payloadOf
    rw [← hstart, ← hfs, Nat.sub_zero, Nat.cast_zero, add_zero, rdBytes_take]
  rw [hbytes] at hall
  refine ⟨file', rets, hall, List.take_prefix _ _, fun hsum => ⟨?_, fun len hlen => ?_⟩⟩
  · apply List.take_of_length_le
    unfold payloadOf
    rw [rdBytes_length, ← hfs]
    omega
  · have hend : 0 + min lens.sum.toNat (file.fsSize - 0) = file'.fsSize := by
      rw [hsz]
      omega
    rw [hend] at hfile'
    exact (espFsRead_uncompressed_step hs espFs.header fuel file' file'.fsSize len 0 hfile'
      (by omega) hlen (by omega)).2.2 rfl

theorem readAll_payload_prefix_witness :
    espFsOpen (none : Option (Heatshrink Unit)) specFs (bytes "a.txt") true
      = .ok (some (fileAAt 0)) ∧
    payloadOf specFs.header (fileAAt 0).header = bytes "hello" ∧
    readAll (none : Option (Heatshrink Unit)) specFs.header 0 (fileAAt 0) [16, 16]
      = .ok (fileAAt 5, bytes "hello", [5, 0]) ∧
    ∃ file' rets,
      readAll (none : Option (Heatshrink Unit)) specFs.header 0 (fileAAt 0) [16]
        = .ok (file', (payloadOf specFs.header (fileAAt 0).header).take ([16] : List Int).sum.toNat,
               rets) ∧
      (payloadOf specFs.header (fileAAt 0).header).take ([16] : List Int).sum.toNat
        <+: payloadOf specFs.header (fileAAt 0).header ∧
      (((fileAAt 0).fsSize : Int) ≤ ([16] : List Int).sum →
        (payloadOf specFs.header (fileAAt 0).header).take ([16] : List Int).sum.toNat
          = payloadOf specFs.header (fileAAt 0).header ∧
        ∀ len : Int, 0 ≤ len →
          espFsRead (none : Option (Heatshrink Unit)) specFs.header 0 file' len
            = .ok (file', [], 0)) :=
  ⟨by decide, by decide, by decide,
   readAll_payload_prefix (none : Option (Heatshrink Unit)) specFs (bytes "a.txt") (fileAAt 0) 0
     [16] (by decide) (by decide) (by decide) (by decide)⟩

/-- C9 (counterexample): the image `bigBytes (2^32 - 1)` holds one uncompressed file whose
record gives `2^32 - 1` as its stored size; on the freshly opened handle the first read, of
length 1, produces no prefix of the payload: the remaining size converted to `int` is `-1`,
and a negative length goes to `memcpy`. -/
theorem readAll_huge_file_fails :
    espFsOpen (none : Option (Heatshrink Unit)) (bigFs 4294967295) (bytes "big") true
      = .ok (some (bigFile 4294967295)) ∧
    (bigFile 4294967295).compress = ESPFS_COMPRESS_NONE ∧
    toInt32 (fsRemainOf (bigFile 4294967295)) = -1 ∧
    readAll (none : Option (Heatshrink Unit)) (bigFs 4294967295).header 0
      (bigFile 4294967295) [1] = .undefined := by
  decide

/-- C10 (as amended): for an open uncompressed handle at position `pos`, `espFsSeek` from
the start with an offset greater than the stored size, and `espFsSeek` relative to the
current position with a positive offset whose target `pos + offset` is greater than the
stored size and at most `2^31 - 1`, set the stored and the logical position to the stored
size and return it; relative to the end every positive offset is rejected: the call returns
-1 and leaves the handle as it is. -/
theorem espFsSeek_past_end {D : Type} (heatshrink : Bool) (file : EspFsFile D) (pos : Nat)
    (offset : Int) (hfile : UncompressedAt file pos) (hmax : offset ≤ 2147483647) :
    ((file.fsSize : Int) < offset →
      espFsSeek heatshrink file offset SEEK_SET =
        .ok ({ file with fsPtr := file.fsStartPtr + file.fsSize, decompPos := file.fsSize },
             file.fsSize)) ∧
    (0 < offset → (file.fsSize : Int) < pos + offset → (pos : Int) + offset ≤ 2147483647 →
      espFsSeek heatshrink file offset SEEK_CUR =
        .ok ({ file with fsPtr := file.fsStartPtr + file.fsSize, decompPos := file.fsSize },
             file.fsSize)) ∧
    (0 < offset → espFsSeek heatshrink file offset SEEK_END = .ok (file, -1)) := by
  obtain ⟨hcomp, hptr, hdec, hpos⟩ := hfile
  refine ⟨fun hgt => ?_, fun h0 hgt hfit => ?_, fun h0 => ?_⟩
  · unfold espFsSeek
    rw [if_pos hcomp, if_pos rfl, if_neg (by omega), if_neg (by omega)]
    dsimp only
    have hu : toUInt32 offset > file.fsSize := by
      have := toUInt32_of_range offset (by omega) (by omega)
      omega
    rw [if_pos hu, toInt32_of_range _ (by omega) (by omega)]
  · unfold espFsSeek
    rw [if_pos hcomp, if_neg (by decide), if_pos rfl, if_neg (by omega), if_neg (by omega),
      hdec, int32_of_range _ (by omega) (by omega), Exec.ok_bind]
    have hu : toUInt32 ((pos : Int) + offset) > file.fsSize := by
      have := toUInt32_of_range ((pos : Int) + offset) (by omega) (by omega)
      omega
    rw [if_pos hu, toInt32_of_range _ (by omega) (by omega)]
  · unfold espFsSeek
    rw [if_pos hcomp, if_neg (by decide), if_neg (by decide), if_pos rfl, if_neg (by omega),
      if_neg (by omega)]

theorem espFsSeek_past_end_witness :
    UncompressedAt (fileAAt 2) 2 ∧
    espFsSeek false (fileAAt 2) 6 SEEK_SET = .ok (fileAAt 5, 5) ∧
    espFsSeek false (fileAAt 2) 4 SEEK_CUR = .ok (fileAAt 5, 5) ∧
    espFsSeek false (fileAAt 2) 1 SEEK_END = .ok (fileAAt 2, -1) :=
  ⟨by decide,
   ((espFsSeek_past_end false (fileAAt 2) 2 6 (by decide) (by decide)).1 (by decide)).trans
     (by decide),
   ((espFsSeek_past_end false (fileAAt 2) 2 4 (by decide) (by decide)).2.1 (by decide)
     (by decide) (by decide)).trans (by decide),
   (espFsSeek_past_end false (fileAAt 2) 2 1 (by decide) (by decide)).2.2 (by decide)⟩

/-- C10 (counterexample): on the handle of `a.txt` (stored size 5) at position 2, a seek
relative to the end with offset 1, whose target 6 is greater than the stored size, fails with
-1 and moves nothing; a seek relative to the current position with offset `2^31 - 1`
overflows the signed sum `decompPos + offset`. -/
theorem espFsSeek_past_end_fails :
    UncompressedAt (fileAAt 2) 2 ∧
    espFsSeek false (fileAAt 2) 1 SEEK_END = .ok (fileAAt 2, -1) ∧
    espFsSeek false (fileAAt 2) 1 SEEK_END ≠ .ok (fileAAt 5, 5) ∧
    espFsSeek false (fileAAt 2) 2147483647 SEEK_CUR = .undefined := by
  decide

/-! ## `espFsSeek` on heatshrink handles, `espFsAccess` -/

/-- C11: for an open heatshrink handle, every seek whose mode and offset are not offset 0
with one of the modes from-start, from-current, from-end (so also every unknown mode)
returns -1 and leaves the handle as it is: logical position, stored position and decoder
state are unchanged. -/
theorem espFsSeek_compressed_invalid {D : Type} (file : EspFsFile D) (offset mode : Int)
    (hc : file.compress = ESPFS_COMPRESS_HEATSHRINK)
    (hbad : ¬(offset = 0 ∧ (mode = SEEK_SET ∨ mode = SEEK_CUR ∨ mode = SEEK_END))) :
    espFsSeek true file offset mode = .ok (file, -1) := by
  have hne : ¬file.compress = ESPFS_COMPRESS_NONE := by
    rw [hc]
    decide
  unfold espFsSeek
  rw [if_neg hne, if_pos ⟨rfl, hc⟩]
  by_cases h0 : offset = 0
  · have hm : ¬mode = SEEK_SET ∧ ¬mode = SEEK_CUR ∧ ¬mode = SEEK_END :=
      ⟨fun h => hbad ⟨h0, Or.inl h⟩, fun h => hbad ⟨h0, Or.inr (Or.inl h)⟩,
        fun h => hbad ⟨h0, Or.inr (Or.inr h)⟩⟩
    rw [if_neg hm.1, if_neg hm.2.1, if_neg hm.2.2]
  · split_ifs <;> rfl

theorem espFsSeek_compressed_invalid_witness :
    espFsOpen (some pairCodec) zFs (bytes "z") true = .ok (some (fileZAt 0 35 [])) ∧
    espFsRead (some pairCodec) zFs.header 10 (fileZAt 0 35 []) 1
      = .ok (fileZAt 1 39 [0, 105], [104], 1) ∧
    espFsSeek true (fileZAt 1 39 [0, 105]) 1 SEEK_SET = .ok (fileZAt 1 39 [0, 105], -1) ∧
    espFsSeek true (fileZAt 1 39 [0, 105]) 0 7 = .ok (fileZAt 1 39 [0, 105], -1) :=
  ⟨by decide, by decide,
   espFsSeek_compressed_invalid (fileZAt 1 39 [0, 105]) 1 SEEK_SET (by decide) (by decide),
   espFsSeek_compressed_invalid (fileZAt 1 39 [0, 105]) 0 7 (by decide) (by decide)⟩

/-- C12 (evaluation at the failing input): the handle `espFsOpen` returns for the compressed
file `z` has stored size 4 (the 5 stored bytes less the parameter byte) and decompressed
size 2; `espFsSeek` from the end with offset 0 sets the logical position to 4, the stored
size, and returns 4, not the decompressed size 2. -/
theorem espFsSeek_compressed_end_stored_size :
    (espFsInit (memOfBytes (imageBytes [fileZ])) false true none).isSome = true ∧
    espFsOpen (some pairCodec) zFs (bytes "z") true = .ok (some (fileZAt 0 35 [])) ∧
    (fileZAt 0 35 []).actualSize = 2 ∧ (fileZAt 0 35 []).fsSize = 4 ∧
    espFsSeek true (fileZAt 0 35 []) 0 SEEK_END = .ok (fileZAt 4 39 [], 4) ∧
    espFsSeek true (fileZAt 0 35 []) 0 SEEK_END ≠ .ok (fileZAt 2 39 [], 2) := by
  decide

/-- C13 (evaluation at the failing input): on the handle of the compressed file `z`, a read
of one byte returns `h` and leaves the decoder holding the pair of `i`; `espFsSeek` from
the start with offset 0 returns 0 and resets the logical position and the cursor, but the
decoder state stays as it was, so the handle is not in the state `espFsOpen` produced, and
the next read of one byte returns `i`, not `h`. -/
theorem espFsSeek_compressed_rewind_keeps_decoder :
    espFsOpen (some pairCodec) zFs (bytes "z") true = .ok (some (fileZAt 0 35 [])) ∧
    espFsRead (some pairCodec) zFs.header 10 (fileZAt 0 35 []) 1
      = .ok (fileZAt 1 39 [0, 105], [104], 1) ∧
    espFsSeek true (fileZAt 1 39 [0, 105]) 0 SEEK_SET = .ok (fileZAt 0 35 [0, 105], 0) ∧
    fileZAt 0 35 [0, 105] ≠ fileZAt 0 35 [] ∧
    (fileZAt 0 35 [0, 105]).decompData ≠ pairCodec.alloc 16 4 4 ∧
    espFsRead (some pairCodec) zFs.header 10 (fileZAt 0 35 [0, 105]) 1
      = .ok (fileZAt 1 39 [0, 104, 0, 105], [105], 1) := by
  decide

/-- C14 (as amended): for an open uncompressed handle whose stored size is below `2^31`, at
any stored position `pos`, `espFsAccess` stores the start of the stored bytes (payload byte
0) to `*buf` and returns the whole stored size, whatever the position. -/
theorem espFsAccess_whole_file {D : Type} (file : EspFsFile D) (pos : Nat)
    (hfile : UncompressedAt file pos) (hsize : file.fsSize < 2147483648) :
    espFsAccess file = (some file.fsStartPtr, (file.fsSize : Int)) := by
  unfold espFsAccess
  rw [if_neg (fun h => h hfile.1), toInt32_of_range _ (by omega) (by omega)]

theorem espFsAccess_whole_file_witness :
    UncompressedAt (fileAAt 2) 2 ∧ espFsAccess (fileAAt 2) = (some 46, 5) :=
  ⟨by decide, espFsAccess_whole_file (fileAAt 2) 2 (by decide) (by decide)⟩

/-- C14 (counterexample): on the handle of `a.txt` (stored bytes at 46, stored size 5) moved
to position 2 by a read, `espFsAccess` gives the start 46 and the length 5, not the start
48 and the length 3 of the remaining bytes. -/
theorem espFsAccess_after_read_fails :
    espFsRead (none : Option (Heatshrink Unit)) specFs.header 0 (fileAAt 0) 2
      = .ok (fileAAt 2, bytes "he", 2) ∧
    UncompressedAt (fileAAt 2) 2 ∧
    espFsAccess (fileAAt 2) = (some 46, 5) ∧
    espFsAccess (fileAAt 2) ≠ (some (46 + 2), 5 - 2) := by
  decide

/-- The handle `espFsOpen` returns refers to the record the lookup found and caches its
`pathLen`. -/
theorem espFsOpen_header {D : Type} (hs : Option (Heatshrink D)) (espFs : EspFs)
    (path : List Nat) (file : EspFsFile D)
    (hopen : espFsOpen hs espFs path true = .ok (some file)) :
    espFsFindObject espFs path = .ok (some file.header) ∧
    file.pathLen = fhPathLen espFs.header file.header ∧
    file.actualSize = fhActualSize espFs.header file.header ∧
    file.decompPos = 0 := by
  have hfound : ∃ r, espFsFindObject espFs path = .ok (some r) := by
    unfold espFsOpen at hopen
    rw [Exec.bind_eq_ok] at hopen
    obtain ⟨found, hfound, hrest⟩ := hopen
    cases found with
    | none => exact absurd hrest (by simp)
    | some r => exact ⟨r, hfound⟩
  obtain ⟨r, hr⟩ := hfound
  rw [espFsOpen_of_found hs espFs path r hr] at hopen
  by_cases hd : fhFlags espFs.header r % 2 = 1
  · rw [if_pos hd] at hopen
    exact absurd hopen (by simp)
  · rw [if_neg hd] at hopen
    by_cases h0 : fhCompress espFs.header r = 0
    · rw [if_pos h0] at hopen
      simp only [Exec.ok.injEq, Option.some.injEq] at hopen
      subst hopen
      exact ⟨hr, rfl, rfl, rfl⟩
    · rw [if_neg h0] at hopen
      cases hs with
      | none => exact absurd hopen (by simp)
      | some hsd =>
        dsimp only at hopen
        by_cases h1 : fhCompress espFs.header r = 1
        · rw [if_pos h1] at hopen
          simp only [Exec.ok.injEq, Option.some.injEq] at hopen
          subst hopen
          exact ⟨hr, rfl, rfl, rfl⟩
        · rw [if_neg h1] at hopen
          exact absurd hopen (by simp)

/-- C19: for a record that `espFsOpen` opens as an uncompressed file (compress tag 0), the
start of the stored bytes and the cursor of the handle are at the record's address plus 12
plus `pathLen`, right after the 12-byte file header and the path bytes, and the stored size
of the handle is the record's `fsSize`. -/
theorem espFsOpen_uncompressed_layout {D : Type} (hs : Option (Heatshrink D)) (espFs : EspFs)
    (path : List Nat) (file : EspFsFile D)
    (hopen : espFsOpen hs espFs path true = .ok (some file))
    (hc : file.compress = ESPFS_COMPRESS_NONE) :
    espFsFindObject espFs path = .ok (some file.header) ∧
    file.fsStartPtr = file.header + 12 + fhPathLen espFs.header file.header ∧
    file.fsPtr = file.header + 12 + fhPathLen espFs.header file.header ∧
    file.fsSize = fhFsSize espFs.header file.header ∧
    file.pathLen = fhPathLen espFs.header file.header ∧
    sizeofEspFsFileHeader = 12 := by
  obtain ⟨hfile, hstart, hsz⟩ := espFsOpen_uncompressed hs espFs path file hopen hc
  obtain ⟨hfind, hlen, _, _⟩ := espFsOpen_header hs espFs path file hopen
  obtain ⟨_, hptr, _, _⟩ := hfile
  have hstart12 : file.fsStartPtr = file.header + 12 + fhPathLen espFs.header file.header :=
    hstart
  refine ⟨hfind, hstart12, ?_, hsz, hlen, rfl⟩
  rw [hptr, hstart12, Nat.cast_zero, add_zero]

theorem espFsOpen_uncompressed_layout_witness :
    espFsOpen (none : Option (Heatshrink Unit)) specFs (bytes "a.txt") true
      = .ok (some (fileAAt 0)) ∧
    (fileAAt 0).fsStartPtr = 28 + 12 + 6 ∧ (fileAAt 0).fsPtr = 28 + 12 + 6 ∧
    fhPathLen specFs.header 28 = 6 ∧ fhFsSize specFs.header 28 = 5 ∧
    (espFsFindObject specFs (bytes "a.txt") = .ok (some (fileAAt 0).header) ∧
      (fileAAt 0).fsStartPtr
        = (fileAAt 0).header + 12 + fhPathLen specFs.header (fileAAt 0).header ∧
      (fileAAt 0).fsPtr = (fileAAt 0).header + 12 + fhPathLen specFs.header (fileAAt 0).header ∧
      (fileAAt 0).fsSize = fhFsSize specFs.header (fileAAt 0).header ∧
      (fileAAt 0).pathLen = fhPathLen specFs.header (fileAAt 0).header ∧
      sizeofEspFsFileHeader = 12) :=
  ⟨by decide, by decide, by decide, by decide, by decide,
   espFsOpen_uncompressed_layout (none : Option (Heatshrink Unit)) specFs (bytes "a.txt")
     (fileAAt 0) (by decide) (by decide)⟩

/-! ## The binary search on a sorted table -/

theorem sorted_le (espFs : EspFs) (hs : SortedTable espFs) (i j : Nat) (hij : i ≤ j)
    (hj : j < espFs.numFiles) : entryHash espFs i ≤ entryHash espFs j := by
  rcases Nat.lt_or_eq_of_le hij with h | h
  · exact hs j hj i h
  · rw [h]

/-- On a sorted table the binary search keeps every entry with the wanted hash between
`first` and `last`. -/
theorem searchLoop_keeps_matches (espFs : EspFs) (hs : SortedTable espFs) (pathHash : Nat) :
    ∀ (fuel : Nat) (first last middle : Int) (r : Int × Int × Int),
      searchLoop espFs pathHash fuel first last middle = .ok r →
      0 ≤ first → last < espFs.numFiles → (first ≤ last → first ≤ middle ∧ middle ≤ last) →
      (∀ i : Nat, i < espFs.numFiles → entryHash espFs i = pathHash →
        first ≤ i ∧ (i : Int) ≤ last) →
      ∀ i : Nat, i < espFs.numFiles → entryHash espFs i = pathHash →
        r.1 ≤ i ∧ (i : Int) ≤ r.2.1 := by
  intro fuel
  induction fuel with
  | zero => intro first last middle r h; simp [searchLoop] at h
  | succ fuel ih =>
    intro first last middle r h h0 hl hm hkeep
    simp only [searchLoop] at h
    split_ifs at h with hfl heq hlt
    · simp only [Exec.ok.injEq] at h
      subst h
      exact hkeep
    · rw [int32_bind_eq_ok] at h
      obtain ⟨_, h⟩ := h
      rw [int32_bind_eq_ok] at h
      obtain ⟨_, h⟩ := h
      rw [int32_bind_eq_ok] at h
      obtain ⟨_, h⟩ := h
      have hm' := hm hfl
      have hmid : ((middle.toNat : Nat) : Int) = middle := Int.toNat_of_nonneg (by omega)
      refine ih _ _ _ r h (by omega) hl ?_ ?_
      · intro hle
        have := tdiv_two_bounds (last - (middle + 1)) (by omega)
        omega
      · intro i hi hhash
        have hk := hkeep i hi hhash
        refine ⟨?_, hk.2⟩
        by_contra hcon
        have hle : i ≤ middle.toNat := by omega
        have := sorted_le espFs hs i middle.toNat hle (by omega)
        rw [hmid, hhash] at this
        omega
    · rw [int32_bind_eq_ok] at h
      obtain ⟨_, h⟩ := h
      rw [int32_bind_eq_ok] at h
      obtain ⟨_, h⟩ := h
      rw [int32_bind_eq_ok] at h
      obtain ⟨_, h⟩ := h
      have hm' := hm hfl
      have hmid : ((middle.toNat : Nat) : Int) = middle := Int.toNat_of_nonneg (by omega)
      refine ih _ _ _ r h h0 (by omega) ?_ ?_
      · intro hle
        have := tdiv_two_bounds (middle - 1 - first) (by omega)
        omega
      · intro i hi hhash
        have hk := hkeep i hi hhash
        refine ⟨hk.1, ?_⟩
        by_contra hcon
        have hle : middle.toNat ≤ i := by omega
        have := sorted_le espFs hs middle.toNat i hle hi
        rw [hmid, hhash] at this
        omega
    · simp only [Exec.ok.injEq] at h
      subst h
      exact hkeep

/-- C18: on a table sorted ascending by hash with `numFiles < 2^31`, for every path, the
binary-search phase of `espFsFindObject` terminates; when some entry has the hash of the
path it stops with `first <= last` at an index below `numFiles` whose entry has that hash;
when no entry has it, it ends with `first > last` and `espFsFindObject` returns `NULL`. -/
theorem binarySearch_sorted (espFs : EspFs) (path : List Nat) (hs : SortedTable espFs)
    (hn : espFs.numFiles < 2147483648) :
    ∃ first last middle : Int,
      binarySearch espFs (hashPath (stripSlash path)) = .ok (first, last, middle) ∧
      ((∃ i : Nat, i < espFs.numFiles ∧ entryHash espFs i = hashPath (stripSlash path)) →
        first ≤ last ∧ 0 ≤ middle ∧ middle < espFs.numFiles ∧
          entryHash espFs middle = hashPath (stripSlash path)) ∧
      ((∀ i : Nat, i < espFs.numFiles → entryHash espFs i ≠ hashPath (stripSlash path)) →
        first > last ∧ espFsFindObject espFs path = .ok none) := by
  have hlast := lastInit_eq espFs.numFiles hn
  have hmid : lastInit espFs.numFiles ≥ 0 →
      0 ≤ (lastInit espFs.numFiles).tdiv 2 ∧
        (lastInit espFs.numFiles).tdiv 2 ≤ lastInit espFs.numFiles :=
    fun hle => tdiv_two_bounds _ hle
  obtain ⟨⟨first, last, middle⟩, hsearch⟩ := searchLoop_ok espFs (hashPath (stripSlash path))
    (espFs.numFiles + 1) 0 (lastInit espFs.numFiles) ((lastInit espFs.numFiles).tdiv 2)
    (le_refl 0) (by omega) (by omega) (fun hle => hmid hle) (by omega)
  have hinv := searchLoop_inv espFs _ (espFs.numFiles - 1) _ _ _ _ _ hsearch (le_refl 0)
    (by omega) (fun hle => hmid hle)
  have hkeep := searchLoop_keeps_matches espFs hs _ _ _ _ _ _ hsearch (le_refl 0) (by omega)
    (fun hle => hmid hle) (fun i hi _ => ⟨by omega, by omega⟩)
  simp only at hinv hkeep
  refine ⟨first, last, middle, hsearch, ?_, ?_⟩
  · rintro ⟨i, hi, hhash⟩
    have hk := hkeep i hi hhash
    have hb := hinv.2.2 (by omega)
    exact ⟨by omega, by omega, by omega, hb.2.2⟩
  · intro hnone
    have hgt : first > last := by
      by_contra hcon
      have hb := hinv.2.2 (by omega)
      have hm0 : (0 : Int) ≤ middle := by omega
      have hcast : ((middle.toNat : Nat) : Int) = middle := Int.toNat_of_nonneg hm0
      have := hnone middle.toNat (by omega)
      rw [hcast] at this
      exact this hb.2.2
    refine ⟨hgt, ?_⟩
    unfold espFsFindObject
    rw [hsearch, Exec.ok_bind]
    unfold findCandidate
    rw [if_pos hgt]

theorem binarySearch_sorted_witness :
    SortedTable collisionFs ∧ collisionFs.numFiles < 2147483648 ∧
    binarySearch collisionFs (hashPath (stripSlash (bytes "ab"))) = .ok (3, 5, 4) ∧
    binarySearch collisionFs (hashPath (stripSlash (bytes "q"))) = .ok (3, 2, 3) ∧
    ∃ first last middle : Int,
      binarySearch collisionFs (hashPath (stripSlash (bytes "ab"))) = .ok (first, last, middle) ∧
      ((∃ i : Nat, i < collisionFs.numFiles ∧
          entryHash collisionFs i = hashPath (stripSlash (bytes "ab"))) →
        first ≤ last ∧ 0 ≤ middle ∧ middle < collisionFs.numFiles ∧
          entryHash collisionFs middle = hashPath (stripSlash (bytes "ab"))) ∧
      ((∀ i : Nat, i < collisionFs.numFiles →
          entryHash collisionFs i ≠ hashPath (stripSlash (bytes "ab"))) →
        first > last ∧ espFsFindObject collisionFs (bytes "ab") = .ok none) :=
  ⟨by decide, by decide, by decide, by decide,
   binarySearch_sorted collisionFs (bytes "ab") (by decide) (by decide)⟩

/-! ## The entries the lookup reads -/

/-- With the bounds in range the binary search with reads returns what the binary search
returns, and every index it reads is between `first` and `last`. -/
theorem searchLoopReads_spec (espFs : EspFs) (pathHash : Nat) (n : Int) :
    ∀ (fuel : Nat) (first last middle : Int),
      0 ≤ first → last < n → last < 2147483647 → first ≤ last + 1 →
      (first ≤ last → first ≤ middle ∧ middle ≤ last) →
      (last + 1 - first).toNat < fuel →
      ∃ r tr, searchLoopReads espFs pathHash fuel first last middle = .ok (r, tr) ∧
        searchLoop espFs pathHash fuel first last middle = .ok r ∧
        ∀ i ∈ tr, 0 ≤ i ∧ i < n := by
  intro fuel
  induction fuel with
  | zero => intro first last middle _ _ _ _ _ hf; omega
  | succ fuel ih =>
    intro first last middle h0 hn hl hfl1 hm hf
    simp only [searchLoopReads, searchLoop]
    split_ifs with hle heq hlt
    · have hm' := hm hle
      refine ⟨_, _, rfl, rfl, fun i hi => ?_⟩
      rw [List.mem_singleton] at hi
      omega
    · have hm' := hm hle
      have hd := tdiv_two_bounds_neg (last - (middle + 1)) (by omega)
      have hd2 : 0 ≤ last - (middle + 1) → (last - (middle + 1)).tdiv 2 ≤ last - (middle + 1) :=
        fun h => (tdiv_two_bounds _ h).2
      rw [int32_of_range (middle + 1) (by omega) (by omega)]
      simp only [Exec.ok_bind]
      rw [int32_of_range (last - (middle + 1)) (by omega) (by omega)]
      simp only [Exec.ok_bind]
      rw [int32_of_range _ (by omega) (by omega)]
      simp only [Exec.ok_bind]
      obtain ⟨r, tr, h1, h2, h3⟩ := ih (middle + 1) last
        (middle + 1 + (last - (middle + 1)).tdiv 2) (by omega) hn hl (by omega)
        (fun h => by have := hd2 (by omega); omega) (by omega)
      rw [h1, h2]
      refine ⟨r, middle :: tr, rfl, rfl, fun i hi => ?_⟩
      rcases List.mem_cons.1 hi with h | h
      · omega
      · exact h3 i h
    · have hm' := hm hle
      have hd := tdiv_two_bounds_neg (middle - 1 - first) (by omega)
      have hd2 : 0 ≤ middle - 1 - first → (middle - 1 - first).tdiv 2 ≤ middle - 1 - first :=
        fun h => (tdiv_two_bounds _ h).2
      rw [int32_of_range (middle - 1) (by omega) (by omega)]
      simp only [Exec.ok_bind]
      rw [int32_of_range (middle - 1 - first) (by omega) (by omega)]
      simp only [Exec.ok_bind]
      rw [int32_of_range _ (by omega) (by omega)]
      simp only [Exec.ok_bind]
      obtain ⟨r, tr, h1, h2, h3⟩ := ih first (middle - 1)
        (first + (middle - 1 - first).tdiv 2) h0 (by omega) (by omega) (by omega)
        (fun h => by have := hd2 (by omega); omega) (by omega)
      rw [h1, h2]
      refine ⟨r, middle :: tr, rfl, rfl, fun i hi => ?_⟩
      rcases List.mem_cons.1 hi with h | h
      · omega
      · exact h3 i h
    · exact ⟨_, _, rfl, rfl, fun i hi => absurd hi (List.not_mem_nil i)⟩

/-- The rewinding loop with reads returns what the rewinding loop returns and reads only
index 1, and only when `middle > 0`. -/
theorem rewindLoopReads_spec (espFs : EspFs) (pathHash : Nat) :
    ∀ (fuel : Nat) (middle : Int), middle ≤ fuel → middle ≤ 2147483647 →
      ∃ r tr, rewindLoopReads espFs pathHash fuel middle = .ok (r, tr) ∧
        rewindLoop espFs pathHash fuel middle = .ok r ∧
        ∀ i ∈ tr, i = 1 ∧ 0 < middle := by
  intro fuel
  induction fuel with
  | zero =>
    intro middle hf _
    simp only [rewindLoopReads, rewindLoop]
    rw [if_neg (by omega), if_neg (by omega)]
    exact ⟨_, _, rfl, rfl, fun i hi => absurd hi (List.not_mem_nil i)⟩
  | succ fuel ih =>
    intro middle hf hmax
    simp only [rewindLoopReads, rewindLoop]
    split_ifs with hpos hne
    · refine ⟨_, _, rfl, rfl, fun i hi => ?_⟩
      rw [List.mem_singleton] at hi
      exact ⟨hi, hpos⟩
    · rw [int32_of_range (middle - 1) (by omega) (by omega)]
      simp only [Exec.ok_bind]
      obtain ⟨r, tr, h1, h2, h3⟩ := ih (middle - 1) (by omega) (by omega)
      rw [h1, h2]
      refine ⟨r, 1 :: tr, rfl, rfl, fun i hi => ?_⟩
      rcases List.mem_cons.1 hi with h | h
      · exact ⟨h, hpos⟩
      · exact ⟨(h3 i h).1, hpos⟩
    · exact ⟨_, _, rfl, rfl, fun i hi => absurd hi (List.not_mem_nil i)⟩

/-- The scanning loop with reads returns what the scanning loop returns, and every index
it reads is between `0` and `last`. -/
theorem scanLoopReads_spec (espFs : EspFs) (path : List Nat) (pathHash : Nat)
    (skip last : Int) (hl : last < 2147483647) :
    ∀ (fuel : Nat) (middle : Int), 0 ≤ middle → middle ≤ last →
      (last + 1 - middle).toNat ≤ fuel →
      ∃ r tr, scanLoopReads espFs path pathHash skip last fuel middle = .ok (r, tr) ∧
        scanLoop espFs path pathHash skip last fuel middle = .ok r ∧
        ∀ i ∈ tr, 0 ≤ i ∧ i ≤ last := by
  intro fuel
  induction fuel with
  | zero => intro middle _ _ hf; omega
  | succ fuel ih =>
    intro middle h0 hml hf
    simp only [scanLoopReads, scanLoop]
    by_cases hhit : middle ≠ skip ∧
        strcmpEq espFs.header path (entryOffset espFs middle + sizeofEspFsFileHeader) = true
    · rw [if_pos hhit, if_pos hhit]
      refine ⟨_, _, rfl, rfl, fun i hi => ?_⟩
      rw [List.mem_singleton] at hi
      omega
    · rw [if_neg hhit, if_neg hhit]
      rw [int32_of_range (middle + 1) (by omega) (by omega)]
      simp only [Exec.ok_bind]
      have hfirst : ∀ i ∈ (if middle ≠ skip then [middle] else []), 0 ≤ i ∧ i ≤ last := by
        intro i hi
        by_cases hs : middle ≠ skip
        · rw [if_pos hs, List.mem_singleton] at hi
          omega
        · rw [if_neg hs] at hi
          exact absurd hi (List.not_mem_nil i)
      by_cases hnext : middle + 1 ≤ last ∧ entryHash espFs (middle + 1) = pathHash
      · rw [if_pos hnext, if_pos hnext]
        obtain ⟨r, tr, h1, h2, h3⟩ := ih (middle + 1) (by omega) hnext.1 (by omega)
        rw [h1, h2]
        refine ⟨r, _, rfl, rfl, fun i hi => ?_⟩
        rcases List.mem_append.1 hi with h | h
        · exact hfirst i h
        · rcases List.mem_cons.1 h with h | h
          · omega
          · exact h3 i h
      · rw [if_neg hnext, if_neg hnext]
        refine ⟨none, _, rfl, rfl, fun i hi => ?_⟩
        rcases List.mem_append.1 hi with h | h
        · exact hfirst i h
        · by_cases hle : middle + 1 ≤ last
          · rw [if_pos hle, List.mem_singleton] at h
            omega
          · rw [if_neg hle] at h
            exact absurd h (List.not_mem_nil i)

/-- C20: for every handle with `numFiles < 2^31` (sorted or not) and every path, the
lookup with reads returns, its result is the result of `espFsFindObject`, and every hash
table entry it reads (in the binary search, in the optimistic test, in the backward loop
with its fixed slot at index 1, and in the forward scan) has an index in `[0, numFiles)`.
With `numFiles = 0` the initial `last` is `-1`, no entry is read and the result is `NULL`. -/
theorem espFsFindObjectReads_in_table (espFs : EspFs) (path : List Nat)
    (hn : espFs.numFiles < 2147483648) :
    ∃ r tr, espFsFindObjectReads espFs path = .ok (r, tr) ∧
      espFsFindObject espFs path = .ok r ∧
      (∀ i ∈ tr, 0 ≤ i ∧ i < (espFs.numFiles : Int)) ∧
      (espFs.numFiles = 0 → lastInit espFs.numFiles = -1 ∧ tr = [] ∧ r = none) := by
  have hlast := lastInit_eq espFs.numFiles hn
  obtain ⟨⟨first, last, middle⟩, tr1, hreads, hsearch, htr1⟩ :=
    searchLoopReads_spec espFs (hashPath (stripSlash path)) (espFs.numFiles : Int)
      (espFs.numFiles + 1) 0 (lastInit espFs.numFiles) ((lastInit espFs.numFiles).tdiv 2)
      (le_refl 0) (by omega) (by omega) (by omega)
      (fun hle => by
        have := tdiv_two_bounds _ hle
        omega)
      (by omega)
  have hinv := searchLoop_inv espFs _ (espFs.numFiles - 1) _ _ _ _ _ hsearch (le_refl 0)
    (by omega) (fun hle => by
      have := tdiv_two_bounds _ hle
      omega)
  simp only at hinv
  unfold espFsFindObjectReads espFsFindObject
  rw [hreads, hsearch]
  simp only [Exec.ok_bind]
  unfold findCandidateReads findCandidate
  by_cases hgt : first > last
  · rw [if_pos hgt, if_pos hgt]
    simp only [Exec.ok_bind]
    refine ⟨none, _, rfl, rfl, ?_, fun h0 => ⟨by omega, ?_, rfl⟩⟩
    · intro i hi
      rw [List.append_nil] at hi
      exact htr1 i hi
    · rw [List.append_nil]
      cases tr1 with
      | nil => rfl
      | cons a t =>
        have := htr1 a (List.mem_cons_self a t)
        omega
  · rw [if_neg hgt, if_neg hgt]
    have hb := hinv.2.2 (by omega)
    by_cases hopt : strcmpEq espFs.header (stripSlash path)
        (entryOffset espFs middle + sizeofEspFsFileHeader) = true
    · rw [if_pos hopt, if_pos hopt]
      simp only [Exec.ok_bind]
      refine ⟨_, _, rfl, rfl, ?_, fun h0 => by omega⟩
      intro i hi
      rcases List.mem_append.1 hi with h | h
      · exact htr1 i h
      · rw [List.mem_singleton] at h
        omega
    · rw [if_neg hopt, if_neg hopt]
      obtain ⟨m, tr2, hrr, hrew, htr2⟩ := rewindLoopReads_spec espFs
        (hashPath (stripSlash path)) middle.toNat middle (by omega) (by omega)
      have hm := rewindLoop_inv espFs _ _ _ _ hrew (by omega)
      rw [hrr, hrew]
      simp only [Exec.ok_bind]
      obtain ⟨r, tr3, hsr, hscan, htr3⟩ := scanLoopReads_spec espFs (stripSlash path)
        (hashPath (stripSlash path)) middle last (by omega) (espFs.numFiles + 1) m
        (by omega) (by omega) (by omega)
      rw [hsr, hscan]
      simp only [Exec.ok_bind]
      refine ⟨r, _, rfl, rfl, ?_, fun h0 => by omega⟩
      intro i hi
      rcases List.mem_append.1 hi with h | h
      · exact htr1 i h
      · rcases List.mem_cons.1 h with h | h
        · omega
        · rcases List.mem_append.1 h with h | h
          · have := htr2 i h
            omega
          · have := htr3 i h
            omega

/-- The theorem of C20 on the six-file table with the collision and the path `ab`, where
the lookup reads the entries 2, 4, 4, 1, 5, and on the empty table, where it reads none. -/
theorem espFsFindObjectReads_in_table_witness :
    (collisionFs.numFiles < 2147483648 ∧
      espFsFindObjectReads collisionFs (bytes "ab") = .ok (none, [2, 4, 4, 1, 5]) ∧
      ∃ r tr, espFsFindObjectReads collisionFs (bytes "ab") = .ok (r, tr) ∧
        espFsFindObject collisionFs (bytes "ab") = .ok r ∧
        (∀ i ∈ tr, 0 ≤ i ∧ i < (collisionFs.numFiles : Int)) ∧
        (collisionFs.numFiles = 0 →
          lastInit collisionFs.numFiles = -1 ∧ tr = [] ∧ r = none)) ∧
    (emptyFs.numFiles < 2147483648 ∧ emptyFs.numFiles = 0 ∧
      espFsFindObjectReads emptyFs (bytes "a") = .ok (none, []) ∧
      ∃ r tr, espFsFindObjectReads emptyFs (bytes "a") = .ok (r, tr) ∧
        espFsFindObject emptyFs (bytes "a") = .ok r ∧
        (∀ i ∈ tr, 0 ≤ i ∧ i < (emptyFs.numFiles : Int)) ∧
        (emptyFs.numFiles = 0 → lastInit emptyFs.numFiles = -1 ∧ tr = [] ∧ r = none)) :=
  ⟨⟨by decide, by decide,
      espFsFindObjectReads_in_table collisionFs (bytes "ab") (by decide)⟩,
    ⟨by decide, by decide, by decide,
      espFsFindObjectReads_in_table emptyFs (bytes "a") (by decide)⟩⟩

/-! ## Mounting -/

theorem rd32_lt (m : Mem) (a : Int) : rd32 m a < 4294967296 := by
  unfold rd32 rd8
  omega

/-- A 32-bit read that lies inside the copied part of a cached table reads the image. -/
theorem rd32_copied (f g : Mem) (size : Nat) (a : Int) (h0 : 0 ≤ a) (h1 : a + 3 < size) :
    rd32 (fun x => if 0 ≤ x ∧ x < (size : Int) then f x else g x) a = rd32 f a := by
  unfold rd32 rd8
  simp only
  rw [if_pos ⟨by omega, by omega⟩, if_pos ⟨by omega, by omega⟩, if_pos ⟨by omega, by omega⟩,
    if_pos ⟨by omega, by omega⟩]

/-- With the magic in place and the handle allocated, `espFsInit` returns a handle on the
region with the header's `numFiles`; its table is the region from byte 12 on when the table
is borrowed, and a block holding the first `hashTableSize` bytes of that when it is cached. -/
theorem espFsInit_some (memAddr : Mem) (cacheHashTable : Bool) (heapBlock : Option Mem)
    (hmagic : hdrMagic memAddr = ESPFS_MAGIC) :
    ∃ espFs, espFsInit memAddr cacheHashTable true heapBlock = some espFs ∧
      espFs.header = memAddr ∧ espFs.numFiles = hdrNumFiles memAddr ∧
      ((cacheHashTable = false ∨ heapBlock = none) →
        espFs.hashTable = fun a => memAddr (sizeofEspFsHeader + a)) ∧
      (∀ block, cacheHashTable = true → heapBlock = some block →
        espFs.hashTable = fun a =>
          if 0 ≤ a ∧ a < (((sizeofEspFsHashTableEntry * hdrNumFiles memAddr) % 4294967296 : Nat)
            : Int) then memAddr (sizeofEspFsHeader + a) else block a) := by
  unfold espFsInit
  rw [if_neg (not_not.2 hmagic), if_neg (by decide)]
  cases cacheHashTable with
  | false =>
    refine ⟨_, rfl, rfl, rfl, fun _ => rfl, fun block h => ?_⟩
    exact absurd h (by decide)
  | true =>
    cases heapBlock with
    | none =>
      refine ⟨_, rfl, rfl, rfl, fun _ => rfl, fun block _ h => ?_⟩
      exact absurd h (by simp)
    | some b =>
      refine ⟨_, rfl, rfl, rfl, fun h => ?_, fun block _ h => ?_⟩
      · rcases h with h | h
        · exact absurd h (by decide)
        · exact absurd h (by simp)
      · cases h
        rfl

theorem rd32_shift (m : Mem) (k x : Int) : rd32 (fun a => m (k + a)) x = rd32 m (k + x) := by
  unfold rd32 rd8
  simp only [add_assoc]

/-- When the table is borrowed, or the table size fits 32 bits, every entry of the handle
below `numFiles` is the entry of the region at byte `12 + 8 * i`. -/
theorem espFsInit_entries (memAddr : Mem) (cacheHashTable : Bool) (heapBlock : Option Mem)
    (hmagic : hdrMagic memAddr = ESPFS_MAGIC)
    (hsize : cacheHashTable = false ∨ heapBlock = none ∨
      sizeofEspFsHashTableEntry * hdrNumFiles memAddr < 4294967296) :
    ∃ espFs, espFsInit memAddr cacheHashTable true heapBlock = some espFs ∧
      espFs.header = memAddr ∧ espFs.numFiles = hdrNumFiles memAddr ∧
      ∀ i : Int, 0 ≤ i → i < hdrNumFiles memAddr →
        entryHash espFs i =
          rd32 memAddr (sizeofEspFsHeader + sizeofEspFsHashTableEntry * i) ∧
        entryOffset espFs i =
          rd32 memAddr (sizeofEspFsHeader + (sizeofEspFsHashTableEntry * i + 4)) := by
  obtain ⟨espFs, hinit, hh, hnf, hborrow, hcache⟩ :=
    espFsInit_some memAddr cacheHashTable heapBlock hmagic
  refine ⟨espFs, hinit, hh, hnf, fun i h0 hi => ?_⟩
  unfold entryHash entryOffset
  by_cases hb : cacheHashTable = false ∨ heapBlock = none
  · rw [hborrow hb, rd32_shift, rd32_shift]
    exact ⟨rfl, rfl⟩
  · have hc : cacheHashTable = true := by
      cases cacheHashTable with
      | false => exact absurd (Or.inl rfl) hb
      | true => rfl
    cases heapBlock with
    | none => exact absurd (Or.inr rfl) hb
    | some block =>
      have hlt : sizeofEspFsHashTableEntry * hdrNumFiles memAddr < 4294967296 := by
        rcases hsize with h | h | h
        · exact absurd (Or.inl h) hb
        · exact absurd (Or.inr h) hb
        · exact h
      have h8 : sizeofEspFsHashTableEntry = 8 := rfl
      rw [hcache block hc rfl, Nat.mod_eq_of_lt hlt,
        rd32_copied _ _ _ _ (by rw [h8]; omega) (by rw [h8]; push_cast; omega),
        rd32_copied _ _ _ _ (by rw [h8]; omega) (by rw [h8]; push_cast; omega),
        rd32_shift, rd32_shift]
      exact ⟨rfl, rfl⟩

/-- C16: `espFsInit` returns `NULL` when the first 32-bit field of the region is not
`0x32736645`. When it is and the handle is allocated, it returns a handle on the region
whose `numFiles` is the header's `numFiles`; when the table is borrowed (no caching, or
the allocation of the copy failed) or `8 * numFiles` fits 32 bits, the entries of its hash
table are the `numFiles` entries that start 12 bytes into the region. -/
theorem espFsInit_checks_magic (memAddr : Mem) (cacheHashTable callocOk : Bool)
    (heapBlock : Option Mem) :
    (hdrMagic memAddr ≠ ESPFS_MAGIC →
      espFsInit memAddr cacheHashTable callocOk heapBlock = none) ∧
    (hdrMagic memAddr = ESPFS_MAGIC → callocOk = true →
      ∃ espFs, espFsInit memAddr cacheHashTable callocOk heapBlock = some espFs ∧
        espFs.header = memAddr ∧ espFs.numFiles = hdrNumFiles memAddr ∧
        ((cacheHashTable = false ∨ heapBlock = none ∨
            sizeofEspFsHashTableEntry * hdrNumFiles memAddr < 4294967296) →
          ∀ i : Nat, i < espFs.numFiles →
            entryHash espFs i =
              rd32 memAddr (sizeofEspFsHeader + sizeofEspFsHashTableEntry * (i : Int)) ∧
            entryOffset espFs i =
              rd32 memAddr (sizeofEspFsHeader + (sizeofEspFsHashTableEntry * (i : Int) + 4)))) := by
  refine ⟨fun hne => ?_, fun hmagic hc => ?_⟩
  · unfold espFsInit
    rw [if_pos hne]
  · subst hc
    obtain ⟨espFs, hinit, hh, hnf, _, _⟩ :=
      espFsInit_some memAddr cacheHashTable heapBlock hmagic
    refine ⟨espFs, hinit, hh, hnf, fun hsize i hi => ?_⟩
    obtain ⟨e, hinit2, _, _, hent⟩ :=
      espFsInit_entries memAddr cacheHashTable heapBlock hmagic hsize
    rw [hinit] at hinit2
    cases hinit2
    exact hent i (by omega) (by omega)

/-- The theorem of C16 on the image of the six-file table, mounted with a cached table,
and on a region of zero bytes. -/
theorem espFsInit_checks_magic_witness :
    espFsInit (fun _ => 0) true true (some heapOf5381) = none ∧
    ∃ espFs, espFsInit (memOfBytes (imageBytes collisionFiles)) true true (some heapOf5381)
        = some espFs ∧
      espFs.header = memOfBytes (imageBytes collisionFiles) ∧
      espFs.numFiles = hdrNumFiles (memOfBytes (imageBytes collisionFiles)) ∧
      ((true = false ∨ some heapOf5381 = none ∨
          sizeofEspFsHashTableEntry * hdrNumFiles (memOfBytes (imageBytes collisionFiles))
            < 4294967296) →
        ∀ i : Nat, i < espFs.numFiles →
          entryHash espFs i = rd32 (memOfBytes (imageBytes collisionFiles))
            (sizeofEspFsHeader + sizeofEspFsHashTableEntry * (i : Int)) ∧
          entryOffset espFs i = rd32 (memOfBytes (imageBytes collisionFiles))
            (sizeofEspFsHeader + (sizeofEspFsHashTableEntry * (i : Int) + 4))) :=
  ⟨(espFsInit_checks_magic (fun _ => 0) true true (some heapOf5381)).1 (by decide),
    (espFsInit_checks_magic (memOfBytes (imageBytes collisionFiles)) true true
      (some heapOf5381)).2 (by decide) rfl⟩

/-- C16 fails for a cached table whose size does not fit 32 bits: for the region with the
magic and `numFiles = 2^29 + 1`, `hashTableSize` is 8, `espFsInit` copies one entry, and
entry 1 of the returned handle is what the heap block holds (hash 5381), not entry 1 of the
region (hash 0). -/
theorem espFsInit_wrapped_table_size :
    hdrMagic wrapRegion = ESPFS_MAGIC ∧ hdrNumFiles wrapRegion = 536870913 ∧
    (sizeofEspFsHashTableEntry * hdrNumFiles wrapRegion) % 4294967296 = 8 ∧
    ∃ espFs, espFsInit wrapRegion true true (some heapOf5381) = some espFs ∧
      espFs.numFiles = 536870913 ∧
      entryHash espFs 1 = 5381 ∧
      rd32 wrapRegion (sizeofEspFsHeader + sizeofEspFsHashTableEntry * 1) = 0 := by
  refine ⟨by decide, by decide, by decide, _, rfl, by decide, by decide, by decide⟩

/-! ## The lookup on two handles whose tables agree below `numFiles` -/

/-- The binary search gives the same outcome on two handles whose entry hashes agree on
the indices between `first` and `last`. -/
theorem searchLoop_congr (e1 e2 : EspFs) (pathHash : Nat) (n : Int)
    (hag : ∀ i : Int, 0 ≤ i → i < n → entryHash e1 i = entryHash e2 i) :
    ∀ (fuel : Nat) (first last middle : Int),
      0 ≤ first → last < n → last < 2147483647 →
      (first ≤ last → first ≤ middle ∧ middle ≤ last) →
      searchLoop e1 pathHash fuel first last middle =
        searchLoop e2 pathHash fuel first last middle := by
  intro fuel
  induction fuel with
  | zero => intro first last middle _ _ _ _; rfl
  | succ fuel ih =>
    intro first last middle h0 hn hl hm
    simp only [searchLoop]
    by_cases hle : first ≤ last
    · have hm' := hm hle
      rw [if_pos hle, if_pos hle, hag middle (by omega) (by omega)]
      by_cases heq : entryHash e2 middle = pathHash
      · rw [if_pos heq, if_pos heq]
      · rw [if_neg heq, if_neg heq]
        by_cases hlt : entryHash e2 middle < pathHash
        · rw [if_pos hlt, if_pos hlt]
          have hd := tdiv_two_bounds_neg (last - (middle + 1)) (by omega)
          have hd2 : 0 ≤ last - (middle + 1) →
              (last - (middle + 1)).tdiv 2 ≤ last - (middle + 1) :=
            fun h => (tdiv_two_bounds _ h).2
          rw [int32_of_range (middle + 1) (by omega) (by omega)]
          simp only [Exec.ok_bind]
          rw [int32_of_range (last - (middle + 1)) (by omega) (by omega)]
          simp only [Exec.ok_bind]
          rw [int32_of_range _ (by omega) (by omega)]
          simp only [Exec.ok_bind]
          exact ih _ _ _ (by omega) hn hl (fun h => by have := hd2 (by omega); omega)
        · rw [if_neg hlt, if_neg hlt]
          have hd := tdiv_two_bounds_neg (middle - 1 - first) (by omega)
          have hd2 : 0 ≤ middle - 1 - first →
              (middle - 1 - first).tdiv 2 ≤ middle - 1 - first :=
            fun h => (tdiv_two_bounds _ h).2
          rw [int32_of_range (middle - 1) (by omega) (by omega)]
          simp only [Exec.ok_bind]
          rw [int32_of_range (middle - 1 - first) (by omega) (by omega)]
          simp only [Exec.ok_bind]
          rw [int32_of_range _ (by omega) (by omega)]
          simp only [Exec.ok_bind]
          exact ih _ _ _ h0 (by omega) (by omega) (fun h => by have := hd2 (by omega); omega)
    · rw [if_neg hle, if_neg hle]

/-- The rewinding loop gives the same outcome on two handles whose entry hashes agree
below `n`, when `middle` is below `n`. -/
theorem rewindLoop_congr (e1 e2 : EspFs) (pathHash : Nat) (n : Int)
    (hag : ∀ i : Int, 0 ≤ i → i < n → entryHash e1 i = entryHash e2 i) :
    ∀ (fuel : Nat) (middle : Int), middle < n → middle ≤ 2147483647 →
      rewindLoop e1 pathHash fuel middle = rewindLoop e2 pathHash fuel middle := by
  intro fuel
  induction fuel with
  | zero => intro middle _ _; rfl
  | succ fuel ih =>
    intro middle hn hmax
    simp only [rewindLoop]
    by_cases hpos : middle > 0
    · rw [if_pos hpos, if_pos hpos, hag 1 (by omega) (by omega)]
      by_cases hne : entryHash e2 1 ≠ pathHash
      · rw [if_pos hne, if_pos hne]
      · rw [if_neg hne, if_neg hne]
        rw [int32_of_range (middle - 1) (by omega) (by omega)]
        simp only [Exec.ok_bind]
        exact ih _ (by omega) (by omega)
    · rw [if_neg hpos, if_neg hpos]

/-- The scanning loop gives the same outcome on two handles on the same image whose
entries agree below `n`, when `last` is below `n`. -/
theorem scanLoop_congr (e1 e2 : EspFs) (path : List Nat) (pathHash : Nat) (n : Int)
    (hh : e1.header = e2.header)
    (hag : ∀ i : Int, 0 ≤ i → i < n → entryHash e1 i = entryHash e2 i)
    (hoff : ∀ i : Int, 0 ≤ i → i < n → entryOffset e1 i = entryOffset e2 i)
    (skip last : Int) (hn : last < n) (hl : last < 2147483647) :
    ∀ (fuel : Nat) (middle : Int), 0 ≤ middle → middle ≤ last →
      scanLoop e1 path pathHash skip last fuel middle =
        scanLoop e2 path pathHash skip last fuel middle := by
  intro fuel
  induction fuel with
  | zero => intro middle _ _; rfl
  | succ fuel ih =>
    intro middle h0 hml
    simp only [scanLoop]
    rw [hh, hoff middle h0 (by omega)]
    by_cases hhit : middle ≠ skip ∧
        strcmpEq e2.header path (entryOffset e2 middle + sizeofEspFsFileHeader) = true
    · rw [if_pos hhit, if_pos hhit]
    · rw [if_neg hhit, if_neg hhit]
      rw [int32_of_range (middle + 1) (by omega) (by omega)]
      simp only [Exec.ok_bind]
      by_cases hle : middle + 1 ≤ last
      · rw [hag (middle + 1) (by omega) (by omega)]
        by_cases hnext : middle + 1 ≤ last ∧ entryHash e2 (middle + 1) = pathHash
        · rw [if_pos hnext, if_pos hnext]
          exact ih _ (by omega) hle
        · rw [if_neg hnext, if_neg hnext]
      · rw [if_neg (fun h => hle h.1), if_neg (fun h => hle h.1)]

/-- The lookup returns, and returns the same, on two handles on the same image with the
same `numFiles < 2^31` whose entries agree below `numFiles`. -/
theorem espFsFindObject_congr (e1 e2 : EspFs) (path : List Nat)
    (hh : e1.header = e2.header) (hnf : e1.numFiles = e2.numFiles)
    (hn : e2.numFiles < 2147483648)
    (hag : ∀ i : Int, 0 ≤ i → i < e2.numFiles → entryHash e1 i = entryHash e2 i)
    (hoff : ∀ i : Int, 0 ≤ i → i < e2.numFiles → entryOffset e1 i = entryOffset e2 i) :
    ∃ r, espFsFindObject e2 path = .ok r ∧ espFsFindObject e1 path = .ok r := by
  have hlast := lastInit_eq e2.numFiles hn
  obtain ⟨r, hr⟩ := espFsFindObject_ok e2 path hn
  refine ⟨r, hr, ?_⟩
  rw [← hr]
  obtain ⟨⟨first, last, middle⟩, hsearch⟩ := searchLoop_ok e2 (hashPath (stripSlash path))
    (e2.numFiles + 1) 0 (lastInit e2.numFiles) ((lastInit e2.numFiles).tdiv 2)
    (le_refl 0) (by omega) (by omega)
    (fun hle => by
      have := tdiv_two_bounds _ hle
      omega)
    (by omega)
  have hinv := searchLoop_inv e2 _ (e2.numFiles - 1) _ _ _ _ _ hsearch (le_refl 0)
    (by omega) (fun hle => by
      have := tdiv_two_bounds _ hle
      omega)
  simp only at hinv
  have hs1 := searchLoop_congr e1 e2 (hashPath (stripSlash path)) e2.numFiles hag
    (e2.numFiles + 1) 0 (lastInit e2.numFiles) ((lastInit e2.numFiles).tdiv 2)
    (le_refl 0) (by omega) (by omega)
    (fun hle => by
      have := tdiv_two_bounds _ hle
      omega)
  unfold espFsFindObject
  rw [hnf, hs1, hsearch]
  simp only [Exec.ok_bind]
  unfold findCandidate
  by_cases hgt : first > last
  · rw [if_pos hgt, if_pos hgt]
  · rw [if_neg hgt, if_neg hgt]
    have hb := hinv.2.2 (by omega)
    rw [hh, hoff middle (by omega) (by omega)]
    by_cases hopt : strcmpEq e2.header (stripSlash path)
        (entryOffset e2 middle + sizeofEspFsFileHeader) = true
    · rw [if_pos hopt, if_pos hopt]
    · rw [if_neg hopt, if_neg hopt]
      rw [rewindLoop_congr e1 e2 _ e2.numFiles hag middle.toNat middle (by omega) (by omega)]
      obtain ⟨m, hrew⟩ := rewindLoop_ok e2 (hashPath (stripSlash path)) middle.toNat middle
        (by omega) (by omega)
      have hm := rewindLoop_inv e2 _ _ _ _ hrew (by omega)
      rw [hrew]
      simp only [Exec.ok_bind]
      rw [hnf]
      exact scanLoop_congr e1 e2 _ _ e2.numFiles hh hag hoff middle last (by omega) (by omega)
        _ m (by omega) (by omega)

theorem espFsOpen_congr {D : Type} (hs : Option (Heatshrink D)) (e1 e2 : EspFs)
    (path : List Nat) (mallocOk : Bool) (hh : e1.header = e2.header)
    (hf : espFsFindObject e1 = espFsFindObject e2) :
    espFsOpen hs e1 path mallocOk = espFsOpen hs e2 path mallocOk := by
  unfold espFsOpen
  rw [hf, hh]

theorem espFsStat_congr (e1 e2 : EspFs) (path : List Nat) (stat : Option EspFsStat)
    (mallocOk : Bool) (hh : e1.header = e2.header)
    (hf : espFsFindObject e1 = espFsFindObject e2) :
    espFsStat e1 path stat mallocOk = espFsStat e2 path stat mallocOk := by
  unfold espFsStat
  rw [hf, hh]

/-- In an image whose records follow the table, the size of the table fits 32 bits. -/
theorem RecordsFollowTable.size_lt (memAddr : Mem) (hv : RecordsFollowTable memAddr) :
    sizeofEspFsHashTableEntry * hdrNumFiles memAddr < 4294967296 := by
  have h8 : sizeofEspFsHashTableEntry = 8 := rfl
  have h12 : sizeofEspFsHeader = 12 := rfl
  by_cases h0 : hdrNumFiles memAddr = 0
  · rw [h0, h8]
    omega
  · have h := hv 0 (by omega)
    have hlt := rd32_lt memAddr
      (sizeofEspFsHeader + sizeofEspFsHashTableEntry * ((0 : Nat) : Int) + 4)
    rw [h8, h12] at h hlt
    rw [h8]
    omega

/-- Two handles `espFsInit` returns for the same image, each with a borrowed table or a
table size that fits 32 bits, give the same lookups. -/
theorem espFsInit_same_lookup (memAddr : Mem) (c1 c2 : Bool) (hb1 hb2 : Option Mem)
    (hmagic : hdrMagic memAddr = ESPFS_MAGIC)
    (hlt : sizeofEspFsHashTableEntry * hdrNumFiles memAddr < 4294967296) :
    ∃ e1 e2, espFsInit memAddr c1 true hb1 = some e1 ∧ espFsInit memAddr c2 true hb2 = some e2 ∧
      e1.header = e2.header ∧
      ∀ path, ∃ r, espFsFindObject e2 path = .ok r ∧ espFsFindObject e1 path = .ok r := by
  obtain ⟨e1, h1, hh1, hn1, hent1⟩ :=
    espFsInit_entries memAddr c1 hb1 hmagic (Or.inr (Or.inr hlt))
  obtain ⟨e2, h2, hh2, hn2, hent2⟩ :=
    espFsInit_entries memAddr c2 hb2 hmagic (Or.inr (Or.inr hlt))
  have h8 : sizeofEspFsHashTableEntry = 8 := rfl
  rw [h8] at hlt
  refine ⟨e1, e2, h1, h2, hh1.trans hh2.symm, fun path => ?_⟩
  refine espFsFindObject_congr e1 e2 path (hh1.trans hh2.symm) (hn1.trans hn2.symm)
    (by omega) (fun i h0 hi => ?_) (fun i h0 hi => ?_)
  · rw [hn2] at hi
    exact (hent1 i h0 hi).1.trans (hent2 i h0 hi).1.symm
  · rw [hn2] at hi
    exact (hent1 i h0 hi).2.trans (hent2 i h0 hi).2.symm

/-- C15: for every image with the magic whose records follow the table and every path,
`espFsFindObject` returns, and returns the same result, on the handle mounted with
`cacheHashTable = true` (the table copied into the block `malloc` returned), on the handle
mounted with `cacheHashTable = false` (the table borrowed from the image) and on the handle
mounted with `cacheHashTable = true` when `malloc` fails; so `espFsStat` and `espFsOpen`
give the same outcome on the three handles. -/
theorem espFsInit_cache_same_result (memAddr block : Mem) (heapBlock : Option Mem)
    (hmagic : hdrMagic memAddr = ESPFS_MAGIC) (hv : RecordsFollowTable memAddr) :
    ∃ cached borrowed fallback : EspFs,
      espFsInit memAddr true true (some block) = some cached ∧
      espFsInit memAddr false true heapBlock = some borrowed ∧
      espFsInit memAddr true true none = some fallback ∧
      cached.cacheHashTable = true ∧ borrowed.cacheHashTable = false ∧
      ∀ path : List Nat,
        (∃ r, espFsFindObject borrowed path = .ok r ∧ espFsFindObject cached path = .ok r ∧
          espFsFindObject fallback path = .ok r) ∧
        (∀ (stat : Option EspFsStat) (mallocOk : Bool),
          espFsStat cached path stat mallocOk = espFsStat borrowed path stat mallocOk ∧
          espFsStat fallback path stat mallocOk = espFsStat borrowed path stat mallocOk) ∧
        (∀ (D : Type) (hs : Option (Heatshrink D)) (mallocOk : Bool),
          espFsOpen hs cached path mallocOk = espFsOpen hs borrowed path mallocOk ∧
          espFsOpen hs fallback path mallocOk = espFsOpen hs borrowed path mallocOk) := by
  have hlt := RecordsFollowTable.size_lt memAddr hv
  obtain ⟨cached, borrowed, hc, hb, hhc, hfc⟩ :=
    espFsInit_same_lookup memAddr true false (some block) heapBlock hmagic hlt
  obtain ⟨fallback, borrowed2, hf, hb2, hhf, hff⟩ :=
    espFsInit_same_lookup memAddr true false none heapBlock hmagic hlt
  rw [hb] at hb2
  cases hb2
  have hcf : espFsFindObject cached = espFsFindObject borrowed := by
    funext path
    obtain ⟨r, h1, h2⟩ := hfc path
    rw [h1, h2]
  have hfb : espFsFindObject fallback = espFsFindObject borrowed := by
    funext path
    obtain ⟨r, h1, h2⟩ := hff path
    rw [h1, h2]
  refine ⟨cached, borrowed, fallback, hc, hb, hf, ?_, ?_, fun path => ⟨?_, ?_, ?_⟩⟩
  · unfold espFsInit at hc
    rw [if_neg (not_not.2 hmagic), if_neg (by decide)] at hc
    cases hc
    rfl
  · unfold espFsInit at hb
    rw [if_neg (not_not.2 hmagic), if_neg (by decide)] at hb
    cases hb
    rfl
  · obtain ⟨r, h1, h2⟩ := hfc path
    refine ⟨r, h1, h2, ?_⟩
    rw [hfb]
    exact h1
  · exact fun stat mallocOk =>
      ⟨espFsStat_congr cached borrowed path stat mallocOk hhc hcf,
        espFsStat_congr fallback borrowed path stat mallocOk hhf hfb⟩
  · exact fun D hs mallocOk =>
      ⟨espFsOpen_congr hs cached borrowed path mallocOk hhc hcf,
        espFsOpen_congr hs fallback borrowed path mallocOk hhf hfb⟩

/-- The theorem of C15 on the image of the six-file table, with a heap block that holds
other entries before the copy. -/
theorem espFsInit_cache_same_result_witness :
    hdrMagic (memOfBytes (imageBytes collisionFiles)) = ESPFS_MAGIC ∧
    RecordsFollowTable (memOfBytes (imageBytes collisionFiles)) ∧
    ∃ cached borrowed fallback : EspFs,
      espFsInit (memOfBytes (imageBytes collisionFiles)) true true (some heapOf5381)
        = some cached ∧
      espFsInit (memOfBytes (imageBytes collisionFiles)) false true none = some borrowed ∧
      espFsInit (memOfBytes (imageBytes collisionFiles)) true true none = some fallback ∧
      cached.cacheHashTable = true ∧ borrowed.cacheHashTable = false ∧
      ∀ path : List Nat,
        (∃ r, espFsFindObject borrowed path = .ok r ∧ espFsFindObject cached path = .ok r ∧
          espFsFindObject fallback path = .ok r) ∧
        (∀ (stat : Option EspFsStat) (mallocOk : Bool),
          espFsStat cached path stat mallocOk = espFsStat borrowed path stat mallocOk ∧
          espFsStat fallback path stat mallocOk = espFsStat borrowed path stat mallocOk) ∧
        (∀ (D : Type) (hs : Option (Heatshrink D)) (mallocOk : Bool),
          espFsOpen hs cached path mallocOk = espFsOpen hs borrowed path mallocOk ∧
          espFsOpen hs fallback path mallocOk = espFsOpen hs borrowed path mallocOk) :=
  ⟨by decide, by decide,
    espFsInit_cache_same_result (memOfBytes (imageBytes collisionFiles)) heapOf5381 none
      (by decide) (by decide)⟩

/-- The layout hypothesis matters: for the region with the magic and `numFiles = 2^29 + 1`,
whose table size wraps to 8, the lookup of the empty path returns the record at offset 0 on
the handle with the cached table and `NULL` on the handle with the borrowed table. -/
theorem espFsFindObject_wrapped_table_differs :
    ¬ RecordsFollowTable wrapRegion ∧
    (espFsInit wrapRegion true true (some heapOf5381)).map (fun e => espFsFindObject e [])
      = some (.ok (some 0)) ∧
    (espFsInit wrapRegion false true none).map (fun e => espFsFindObject e [])
      = some (.ok none) :=
  ⟨fun h => absurd (h 0 (by decide)) (by decide), by decide, by decide⟩

/-! ## The position of an uncompressed handle -/

/-- On an open uncompressed handle with a stored size below `2^31`, `espFsSeek` with an
offset in the range of `long` that does not overflow `decompPos + offset` returns and
leaves an open uncompressed handle on the same record. -/
theorem espFsSeek_uncompressed {D : Type} (heatshrink : Bool) (file : EspFsFile D) (pos : Nat)
    (offset mode : Int) (hfile : UncompressedAt file pos) (hsize : file.fsSize < 2147483648)
    (hlo : -2147483648 ≤ offset) (hhi : offset ≤ 2147483647)
    (hcur : mode = SEEK_CUR → (pos : Int) + offset ≤ 2147483647) :
    ∃ (f : EspFsFile D) (p : Nat) (ret : Int),
      espFsSeek heatshrink file offset mode = .ok (f, ret) ∧ UncompressedAt f p ∧
      f.fsSize = file.fsSize ∧ f.actualSize = file.actualSize := by
  obtain ⟨hcomp, hptr, hdec, hpos⟩ := hfile
  have hfs := toInt32_of_range (file.fsSize : Int) (by omega) (by omega)
  unfold espFsSeek
  rw [if_pos hcomp]
  by_cases hset : mode = SEEK_SET
  · rw [if_pos hset]
    by_cases hneg : offset < 0
    · rw [if_pos hneg]
      exact ⟨file, pos, _, rfl, ⟨hcomp, hptr, hdec, hpos⟩, rfl, rfl⟩
    · rw [if_neg hneg]
      by_cases hz : offset = 0
      · rw [if_pos hz]
        exact ⟨_, 0, _, rfl, ⟨hcomp, by simp, by simp, Nat.zero_le _⟩, rfl, rfl⟩
      · rw [if_neg hz]
        dsimp only
        have hu := toUInt32_of_range offset (by omega) (by omega)
        by_cases hgt : toUInt32 offset > file.fsSize
        · rw [if_pos hgt, hfs]
          exact ⟨_, file.fsSize, _, rfl, ⟨hcomp, rfl, rfl, le_refl _⟩, rfl, rfl⟩
        · rw [if_neg hgt]
          refine ⟨_, offset.toNat, _, rfl, ⟨hcomp, ?_, ?_, ?_⟩, rfl, rfl⟩
          · show file.fsStartPtr + offset = file.fsStartPtr + (offset.toNat : Int)
            omega
          · show offset = (offset.toNat : Int)
            omega
          · show offset.toNat ≤ file.fsSize
            omega
  · rw [if_neg hset]
    by_cases hc : mode = SEEK_CUR
    · have hfit := hcur hc
      rw [if_pos hc]
      by_cases hneg : offset < 0
      · rw [if_pos hneg, hdec, int32_of_range _ (by omega) (by omega), Exec.ok_bind]
        by_cases hp : (pos : Int) + offset < 0
        · rw [if_pos hp]
          exact ⟨_, 0, _, rfl, ⟨hcomp, by simp, by simp, Nat.zero_le _⟩, rfl, rfl⟩
        · rw [if_neg hp]
          refine ⟨_, ((pos : Int) + offset).toNat, _, rfl, ⟨hcomp, ?_, ?_, ?_⟩, rfl, rfl⟩
          · show file.fsPtr + offset = file.fsStartPtr + (((pos : Int) + offset).toNat : Int)
            omega
          · show (pos : Int) + offset = (((pos : Int) + offset).toNat : Int)
            omega
          · show ((pos : Int) + offset).toNat ≤ file.fsSize
            omega
      · rw [if_neg hneg]
        by_cases hz : offset = 0
        · rw [if_pos hz]
          exact ⟨file, pos, _, rfl, ⟨hcomp, hptr, hdec, hpos⟩, rfl, rfl⟩
        · rw [if_neg hz, hdec, int32_of_range _ (by omega) (by omega), Exec.ok_bind]
          have hu := toUInt32_of_range ((pos : Int) + offset) (by omega) (by omega)
          by_cases hgt : toUInt32 ((pos : Int) + offset) > file.fsSize
          · rw [if_pos hgt, hfs]
            exact ⟨_, file.fsSize, _, rfl, ⟨hcomp, rfl, rfl, le_refl _⟩, rfl, rfl⟩
          · rw [if_neg hgt]
            refine ⟨_, ((pos : Int) + offset).toNat, _, rfl, ⟨hcomp, ?_, ?_, ?_⟩, rfl, rfl⟩
            · show file.fsPtr + offset = file.fsStartPtr + (((pos : Int) + offset).toNat : Int)
              omega
            · show (pos : Int) + offset = (((pos : Int) + offset).toNat : Int)
              omega
            · show ((pos : Int) + offset).toNat ≤ file.fsSize
              omega
    · rw [if_neg hc]
      by_cases he : mode = SEEK_END
      · rw [if_pos he]
        by_cases hneg : offset < 0
        · rw [if_pos hneg, hfs, int32_of_range _ (by omega) (by omega), Exec.ok_bind]
          by_cases hp : (file.fsSize : Int) + offset < 0
          · rw [if_pos hp]
            exact ⟨_, 0, _, rfl, ⟨hcomp, by simp, by simp, Nat.zero_le _⟩, rfl, rfl⟩
          · rw [if_neg hp, toInt32_of_range _ (by omega) (by omega)]
            refine ⟨_, ((file.fsSize : Int) + offset).toNat, _, rfl, ⟨hcomp, ?_, ?_, ?_⟩,
              rfl, rfl⟩
            · show file.fsStartPtr + file.fsSize + offset =
                file.fsStartPtr + (((file.fsSize : Int) + offset).toNat : Int)
              omega
            · show (file.fsSize : Int) + offset = (((file.fsSize : Int) + offset).toNat : Int)
              omega
            · show ((file.fsSize : Int) + offset).toNat ≤ file.fsSize
              omega
        · rw [if_neg hneg]
          by_cases hz : offset = 0
          · rw [if_pos hz, hfs]
            exact ⟨_, file.fsSize, _, rfl, ⟨hcomp, rfl, rfl, le_refl _⟩, rfl, rfl⟩
          · rw [if_neg hz]
            exact ⟨file, pos, _, rfl, ⟨hcomp, hptr, hdec, hpos⟩, rfl, rfl⟩
      · rw [if_neg he]
        exact ⟨file, pos, _, rfl, ⟨hcomp, hptr, hdec, hpos⟩, rfl, rfl⟩

/-- One call with arguments in range on an open uncompressed handle with a stored size
below `2^31` returns and leaves an open uncompressed handle on the same record. -/
theorem callFile_uncompressed {D : Type} (hs : Option (Heatshrink D)) (m : Mem) (fuel : Nat)
    (file : EspFsFile D) (pos : Nat) (c : FileCall) (hfile : UncompressedAt file pos)
    (hsize : file.fsSize < 2147483648) (hc : CallInRange file.fsSize c) :
    ∃ (f : EspFsFile D) (p : Nat), callFile hs m fuel file c = .ok f ∧ UncompressedAt f p ∧
      f.fsSize = file.fsSize ∧ f.actualSize = file.actualSize := by
  cases c with
  | read len =>
    have hstep := espFsRead_uncompressed_step hs m fuel file pos len
      (min len.toNat (file.fsSize - pos)) hfile hsize hc rfl
    simp only [callFile]
    rw [hstep.1]
    simp only [Exec.ok_bind]
    exact ⟨_, _, rfl, hstep.2.1, rfl, rfl⟩
  | seek offset mode =>
    obtain ⟨hlo, hhi, hcur⟩ := hc
    have hpos := hfile.2.2.2
    obtain ⟨f, p, ret, hseek, hf, h1, h2⟩ := espFsSeek_uncompressed hs.isSome file pos offset
      mode hfile hsize hlo hhi (fun h => by have := hcur h; omega)
    simp only [callFile]
    rw [hseek]
    simp only [Exec.ok_bind]
    exact ⟨f, p, rfl, hf, h1, h2⟩

/-- A sequence of calls with arguments in range on an open uncompressed handle with a
stored size below `2^31` returns, and after every call the handle is an open uncompressed
handle on the same record. -/
theorem callsFile_uncompressed {D : Type} (hs : Option (Heatshrink D)) (m : Mem) (fuel : Nat)
    (fsSize actualSize : Nat) (hsize : fsSize < 2147483648) :
    ∀ (calls : List FileCall) (file : EspFsFile D) (pos : Nat), UncompressedAt file pos →
      file.fsSize = fsSize → file.actualSize = actualSize →
      (∀ c ∈ calls, CallInRange fsSize c) →
      ∃ files, callsFile hs m fuel file calls = .ok files ∧ files.length = calls.length ∧
        ∀ f ∈ files, (∃ p, UncompressedAt f p) ∧ f.fsSize = fsSize ∧
          f.actualSize = actualSize := by
  intro calls
  induction calls with
  | nil =>
    intro file pos _ _ _ _
    exact ⟨[], rfl, rfl, fun f hf => absurd hf (List.not_mem_nil f)⟩
  | cons c cs ih =>
    intro file pos hfile hfs hact hcalls
    obtain ⟨f, p, hcall, hf, h1, h2⟩ := callFile_uncompressed hs m fuel file pos c hfile
      (by omega) (by rw [hfs]; exact hcalls c (List.mem_cons_self c cs))
    obtain ⟨files, hrest, hlen, hall⟩ := ih f p hf (h1.trans hfs) (h2.trans hact)
      (fun c2 h => hcalls c2 (List.mem_cons_of_mem c h))
    simp only [callsFile]
    rw [hcall]
    simp only [Exec.ok_bind]
    rw [hrest]
    simp only [Exec.ok_bind]
    refine ⟨f :: files, rfl, by rw [List.length_cons, List.length_cons, hlen], fun g hg => ?_⟩
    rcases List.mem_cons.1 hg with h | h
    · rw [h]
      exact ⟨⟨p, hf⟩, h1.trans hfs, h2.trans hact⟩
    · exact hall g h

/-- On uncompressed handles the logical position keeps its range: for every handle
`espFsOpen` returns for an uncompressed record whose stored size equals its `actualSize`
and is below `2^31`, and every finite sequence of `espFsRead` calls with `len >= 0` and
`espFsSeek` calls whose offsets are in the range of `long` and, relative to the current
position, at most `2^31 - 1 - fsSize`, every call returns, whether it succeeds or fails,
and after every call the logical position is within `[0, actualSize]`. -/
theorem callsFile_position_in_range {D : Type} (hs : Option (Heatshrink D)) (m : Mem)
    (fuel : Nat) (espFs : EspFs) (path : List Nat) (file : EspFsFile D)
    (calls : List FileCall)
    (hopen : espFsOpen hs espFs path true = .ok (some file))
    (hc : file.compress = ESPFS_COMPRESS_NONE)
    (hact : file.actualSize = file.fsSize) (hsize : file.fsSize < 2147483648)
    (hcalls : ∀ c ∈ calls, CallInRange file.fsSize c) :
    ∃ files, callsFile hs m fuel file calls = .ok files ∧ files.length = calls.length ∧
      ∀ f ∈ files, 0 ≤ f.decompPos ∧ f.decompPos ≤ f.actualSize ∧
        f.actualSize = file.actualSize := by
  have hfile := (espFsOpen_uncompressed hs espFs path file hopen hc).1
  obtain ⟨files, hrun, hlen, hall⟩ := callsFile_uncompressed hs m fuel file.fsSize
    file.actualSize hsize calls file 0 hfile rfl rfl hcalls
  refine ⟨files, hrun, hlen, fun f hf => ?_⟩
  obtain ⟨⟨p, _, _, hdec, hp⟩, h1, h2⟩ := hall f hf
  refine ⟨by omega, ?_, h2⟩
  rw [h2, hact, hdec]
  omega

/-- The range of the position on the handle of `a.txt` of the scenario and the calls read 3,
seek -1 from the current position, seek 9 from the start, seek 1 from the end, read 2. -/
theorem callsFile_position_in_range_witness :
    espFsOpen (none : Option (Heatshrink Unit)) specFs (bytes "a.txt") true
      = .ok (some (fileAAt 0)) ∧
    (∀ c ∈ [FileCall.read 3, .seek (-1) SEEK_CUR, .seek 9 SEEK_SET, .seek 1 SEEK_END, .read 2],
      CallInRange (fileAAt 0).fsSize c) ∧
    callsFile (none : Option (Heatshrink Unit)) specFs.header 0 (fileAAt 0)
        [.read 3, .seek (-1) SEEK_CUR, .seek 9 SEEK_SET, .seek 1 SEEK_END, .read 2]
      = .ok [fileAAt 3, fileAAt 2, fileAAt 5, fileAAt 5, fileAAt 5] ∧
    ∃ files, callsFile (none : Option (Heatshrink Unit)) specFs.header 0 (fileAAt 0)
        [.read 3, .seek (-1) SEEK_CUR, .seek 9 SEEK_SET, .seek 1 SEEK_END, .read 2]
        = .ok files ∧
      files.length =
        [FileCall.read 3, .seek (-1) SEEK_CUR, .seek 9 SEEK_SET, .seek 1 SEEK_END,
          .read 2].length ∧
      ∀ f ∈ files, 0 ≤ f.decompPos ∧ f.decompPos ≤ f.actualSize ∧
        f.actualSize = (fileAAt 0).actualSize :=
  ⟨by decide, by decide, by decide,
    callsFile_position_in_range none specFs.header 0 specFs (bytes "a.txt") (fileAAt 0)
      [.read 3, .seek (-1) SEEK_CUR, .seek 9 SEEK_SET, .seek 1 SEEK_END, .read 2]
      (by decide) (by decide) (by decide) (by decide) (by decide)⟩

/-- C17 (evaluation at the failing input): on the handle `espFsOpen` returns for the
compressed file `z` (decompressed size 2, stored size 4 after the parameter byte) the
logical position leaves `[0, actualSize]`. The calls read 1, seek 0 from the end, read 5 all
return and leave the position at 1, 4, 5: the seek assigns the stored size where the
decompressed size is meant, and the read that follows moves the position on. The calls
read 1, seek 0 from the start, read 5 leave it at 1, 0, 3: the seek keeps the decoder, which
decodes the stored bytes again behind its pending input. Reads alone and the seeks that are
rejected keep the position within `[0, 2]`. -/
theorem callsFile_compressed_position_exceeds :
    espFsOpen (some pairCodec) zFs (bytes "z") true = .ok (some (fileZAt 0 35 [])) ∧
    (fileZAt 0 35 []).actualSize = 2 ∧
    callsFile (some pairCodec) zFs.header 10 (fileZAt 0 35 [])
        [.read 1, .seek 0 SEEK_END, .read 5]
      = .ok [fileZAt 1 39 [0, 105], fileZAt 4 39 [0, 105], fileZAt 5 39 []] ∧
    (fileZAt 4 39 [0, 105]).actualSize = 2 ∧ (fileZAt 4 39 [0, 105]).decompPos = 4 ∧
    (fileZAt 5 39 []).actualSize = 2 ∧ (fileZAt 5 39 []).decompPos = 5 ∧
    callsFile (some pairCodec) zFs.header 10 (fileZAt 0 35 [])
        [.read 1, .seek 0 SEEK_SET, .read 5]
      = .ok [fileZAt 1 39 [0, 105], fileZAt 0 35 [0, 105], fileZAt 3 39 []] ∧
    (fileZAt 3 39 []).actualSize = 2 ∧ (fileZAt 3 39 []).decompPos = 3 ∧
    callsFile (some pairCodec) zFs.header 10 (fileZAt 0 35 []) [.read 1, .read 5, .read 5]
      = .ok [fileZAt 1 39 [0, 105], fileZAt 2 39 [], fileZAt 2 39 []] ∧
    callsFile (some pairCodec) zFs.header 10 (fileZAt 0 35 [])
        [.seek 1 SEEK_SET, .seek (-1) SEEK_CUR, .seek 1 SEEK_END, .seek 0 7]
      = .ok [fileZAt 0 35 [], fileZAt 0 35 [], fileZAt 0 35 [], fileZAt 0 35 []] := by
  decide

end Espfs
